import Mathlib

/-! # qxt: edge list to Ising coefficients, and solver result parsing

A shallow embedding of `src/qx/qxt.cpp`.

* `std::set<T>` is a strictly ascending list, `std::map<int, std::set<int>>` a list of
  `(key, set)` pairs with strictly ascending keys; both are iterated in that order.
* `int` values read from the input are range-checked (`operator>>` sets the fail bit on
  overflow), and `int` arithmetic on them is reduced into the range of `int` (`wrapInt`).  The container size `edges.size()` and the line counter are natural numbers:
  no run that fits in memory makes them leave the range of `int`.
* Thrown strings are the constructors of `QxtError`; `QxtError.message` gives the text.
* Standard input of `parse_result` is the list of its characters; the read loop stops at
  the first extraction that fails.  The text written to standard output is a `String`.
-/

namespace Qxt

/-! ## Ordered containers -/

/-- Model of `std::set<T>::insert` on a strictly ascending list: the element is put at its
place in the order, and the set is unchanged when an equal element is already there. -/
def setInsert {α : Type} [DecidableEq α] (lt : α → α → Bool) (a : α) : List α → List α
  | [] => [a]
  | b :: bs =>
    if lt a b then a :: b :: bs
    else if a = b then b :: bs
    else b :: setInsert lt a bs

/-- Order of `std::string` (`operator<`): lexicographic on the characters. -/
def strLt : List Char → List Char → Bool
  | [], [] => false
  | [], _ :: _ => true
  | _ :: _, [] => false
  | a :: as, b :: bs =>
    if a.toNat < b.toNat then true
    else if b.toNat < a.toNat then false
    else strLt as bs

/-- Order of `int`. -/
def intLt (a b : Int) : Bool := decide (a < b)

/-- Order of `std::pair<int, int>`: lexicographic. -/
def pairLt (a b : Int × Int) : Bool :=
  decide (a.1 < b.1) || (decide (a.1 = b.1) && decide (a.2 < b.2))

/-! ## parse_result -/

/-- One record `H N t` read from the solver output by `std::cin >> H >> N >> t`. -/
structure Readout where
  H : Int
  N : Int
  t : List Char
deriving DecidableEq, Repr

/-- The variables of `parse_result` that live across loop iterations. -/
structure ResultState where
  bestH : Int
  solutions : List (List Char)
deriving DecidableEq, Repr

/-- The loop `for (i = 0; i < t.size(); i++)` of `parse_result`, run over the remaining
characters: `t0` is `t[0]`, the accumulator is `(cntr, s)`. -/
def rebuildLoop (t0 : Char) : List Char → Nat × List Char → Nat × List Char
  | [], acc => acc
  | c :: cs, (cntr, s) =>
    if c = t0 then rebuildLoop t0 cs (cntr + 1, s ++ ['0'])
    else rebuildLoop t0 cs (cntr, s ++ ['1'])

/-- The pair `(cntr, s)` after the rebuild loop of `parse_result` on the bit string `t`.
`t[0]` is read only inside the loop, so only when `t` is not empty. -/
def rebuild (t : List Char) : Nat × List Char :=
  match t with
  | [] => (0, [])
  | t0 :: _ => rebuildLoop t0 t (0, [])

/-- The rebuilt ("canonical") string `s` of a bit string. -/
def canonical (t : List Char) : List Char := (rebuild t).2

/-- One iteration of the `while (true)` loop of `parse_result`, after a record was read. -/
def resultStep (st : ResultState) (r : Readout) : ResultState :=
  let (cntr, s) := rebuild r.t
  if cntr * 2 ≠ s.length then st
  else
    let st1 : ResultState :=
      if st.solutions.isEmpty then ⟨r.H, setInsert strLt s st.solutions⟩ else st
    if r.H > st1.bestH then st1
    else if r.H = st1.bestH then ⟨st1.bestH, setInsert strLt s st1.solutions⟩
    else ⟨r.H, setInsert strLt s []⟩

/-- The state of `parse_result` when its read loop ends, for the records that were read. -/
def resultLoop (records : List Readout) : ResultState :=
  records.foldl resultStep ⟨0, []⟩

/-- A bit string is balanced when exactly half of the positions of its canonical string
hold the symbol of group A. -/
def Balanced (t : List Char) : Prop :=
  2 * (canonical t).count '0' = (canonical t).length

instance (t : List Char) : Decidable (Balanced t) := by
  unfold Balanced; infer_instance

/-! ## Formatted input of `int` -/

/-- Whitespace of the classic locale, skipped by `operator>>` before a number. -/
def isSpace (c : Char) : Bool :=
  c = ' ' || c = '\t' || c = '\n' || c = '\x0b' || c = '\x0c' || c = '\r'

/-- Decimal digit. -/
def isDigit (c : Char) : Bool := decide (48 ≤ c.toNat) && decide (c.toNat ≤ 57)

/-- Drop the leading whitespace. -/
def skipSpace : List Char → List Char
  | [] => []
  | c :: cs => if isSpace c then skipSpace cs else c :: cs

/-- Split off the leading run of decimal digits. -/
def takeDigits : List Char → List Char × List Char
  | [] => ([], [])
  | c :: cs =>
    if isDigit c then (c :: (takeDigits cs).1, (takeDigits cs).2)
    else ([], c :: cs)

/-- Value of a run of decimal digits. -/
def digitsValue (ds : List Char) : Nat :=
  ds.foldl (fun n c => 10 * n + (c.toNat - 48)) 0

/-- Take the optional sign in front of a number: whether it is a minus, and what follows. -/
def takeSign : List Char → Bool × List Char
  | [] => (false, [])
  | c :: r => if c = '-' then (true, r) else if c = '+' then (false, r) else (false, c :: r)

/-- Model of `std::istream::operator>>(int &)` on the unread characters of a string stream:
skip whitespace, take an optional sign and the digits that follow; the extraction fails
(`none`, the fail bit) when there is no digit or the value does not fit in `int`.
On success the value and the unread rest are returned. -/
def readInt (s : List Char) : Option (Int × List Char) :=
  let signed := takeSign (skipSpace s)
  let ds := takeDigits signed.2
  if ds.1 = [] then none
  else
    let v : Int := if signed.1 then - (digitsValue ds.1 : Int) else (digitsValue ds.1 : Int)
    if v < -2147483648 ∨ 2147483647 < v then none
    else some (v, ds.2)

/-- Model of `is >> x >> y; if (!is) ...` on a line: `none` when the stream has failed. -/
def parseTwo (line : List Char) : Option (Int × Int) :=
  match readInt line with
  | none => none
  | some (x, r) =>
    match readInt r with
    | none => none
    | some (y, _) => some (x, y)

/-! ## main: reading the edge list -/

/-- The strings thrown by `main`. -/
inductive QxtError where
  | badIndices (line : Nat)
  | edgeRepetition (line : Nat)
  | nodeZero
  | nodeGap (idx : Int)
  | noEdges
  | oddNodes
deriving DecidableEq, Repr

instance {ε α : Type} [DecidableEq ε] [DecidableEq α] : DecidableEq (Except ε α)
  | .ok a, .ok b => if h : a = b then isTrue (by rw [h]) else isFalse (by intro e; cases e; exact h rfl)
  | .error a, .error b =>
    if h : a = b then isTrue (by rw [h]) else isFalse (by intro e; cases e; exact h rfl)
  | .ok _, .error _ => isFalse (by intro e; cases e)
  | .error _, .ok _ => isFalse (by intro e; cases e)

/-- The value of an `int` expression whose exact result is `v`: the result is reduced
into the range of `int` (the subtraction `idx - 1` of line 98 leaves that range only at
the least `int`, where the run prints the greatest). -/
def wrapInt (v : Int) : Int := (v + 2147483648) % 4294967296 - 2147483648

/-- Text of the thrown string; `av1` is the input file name. -/
def QxtError.message (av1 : String) : QxtError → String
  | .badIndices line => "Bad indices at line " ++ toString line
  | .edgeRepetition line => "Edge repetition at line " ++ toString line
  | .nodeZero => "Node 0 must be defined"
  | .nodeGap idx =>
    "Node " ++ toString idx ++ " is defined, but not " ++ toString (wrapInt (idx - 1))
  | .noEdges => "Input file " ++ av1 ++ " does not define any edges"
  | .oddNodes => "Number of nodes must be even"

/-- Model of `std::map<int, std::set<int>>`: entries by strictly ascending key. -/
abbrev Graph := List (Int × List Int)

/-- Model of `edges[x].insert(y)`: `operator[]` creates the entry of `x` with an empty set
when `x` is not a key yet. -/
def edgesInsert (x y : Int) : Graph → Graph
  | [] => [(x, setInsert intLt y [])]
  | (k, s) :: g =>
    if x < k then (x, setInsert intLt y []) :: (k, s) :: g
    else if x = k then (k, setInsert intLt y s) :: g
    else (k, s) :: edgesInsert x y g

/-- Keys of the map, in iteration order. -/
def keys (g : Graph) : List Int := g.map Prod.fst

/-- Neighbor set stored under `x` (empty when `x` is not a key). -/
def neighbors : Graph → Int → List Int
  | [], _ => []
  | (k, s) :: g, x => if x = k then s else neighbors g x

/-- The containers `edges` and `check` of `main`. -/
structure EdgeState where
  edges : Graph
  check : List (Int × Int)
deriving DecidableEq, Repr

/-- The two `continue` tests at the head of the line loop. -/
def ignored (line : List Char) : Bool :=
  (line.isEmpty || line.head? = some '#') || (line.length = 1 && line.head? = some '\r')

/-- Body of the line loop of `main` for one line; `line_counter` is its 1-based number. -/
def processLine (st : EdgeState) (line_counter : Nat) (line : List Char) :
    Except QxtError EdgeState :=
  if ignored line then .ok st
  else
    match parseTwo line with
    | none => .error (.badIndices line_counter)
    | some (x, y) =>
      if (x, y) ∈ st.check then .error (.edgeRepetition line_counter)
      else
        .ok ⟨edgesInsert y x (edgesInsert x y st.edges),
             setInsert pairLt (y, x) (setInsert pairLt (x, y) st.check)⟩

/-- The line loop of `main`: `line_counter` is increased after every line, ignored or not. -/
def readLoop (st : EdgeState) (line_counter : Nat) : List (List Char) → Except QxtError EdgeState
  | [] => .ok st
  | line :: rest =>
    match processLine st line_counter line with
    | .error e => .error e
    | .ok st1 => readLoop st1 (line_counter + 1) rest

/-- The loop "check that indices are continous" over the entries of `edges`. -/
def checkLoop (current_node_counter : Int) : Graph → Except QxtError Unit
  | [] => .ok ()
  | (idx, _) :: g =>
    if current_node_counter + 1 ≠ idx then
      if idx = 0 then .error .nodeZero else .error (.nodeGap idx)
    else checkLoop (current_node_counter + 1) g

/-- Lines 57-107 of `main`: read the lines, check the indices, count the nodes. -/
def parseEdges (lines : List (List Char)) : Except QxtError (Graph × Nat) :=
  match readLoop ⟨[], []⟩ 1 lines with
  | .error e => .error e
  | .ok st =>
    match checkLoop (-1) st.edges with
    | .error e => .error e
    | .ok _ =>
      let N := st.edges.length
      if N = 0 then .error .noEdges
      else if N % 2 ≠ 0 then .error .oddNodes
      else .ok (st.edges, N)

/-! ## main: output of the coefficients -/

/-- One output line `i j weight`. -/
abbrev Record := Int × Int × Int

/-- The lines written for one entry `node` of `edges`: the diagonal line, then the loop
`for (i = index + 1; i < N; i++)`, which runs `N - (index + 1)` times when that is positive. -/
def emitNode (N : Int) (node : Int × List Int) : List Record :=
  (node.1, node.1, 0) ::
    (List.range (N - (node.1 + 1)).toNat).map fun (k : Nat) =>
      (node.1, node.1 + 1 + (k : Int), if node.1 + 1 + (k : Int) ∈ node.2 then N - 1 else N)

/-- The loop "output coefficients" over the entries of `edges`. -/
def emit (N : Int) : Graph → List Record
  | [] => []
  | node :: g => emitNode N node ++ emit N g

/-- The conversion run of `main` on the lines of the input file: the thrown string, or the
lines written to the output file. -/
def convert (lines : List (List Char)) : Except QxtError (List Record) :=
  match parseEdges lines with
  | .error e => .error e
  | .ok (g, N) => .ok (emit (N : Int) g)

/-! ## parse_result: the input stream and the report -/

/-- Split off the leading run of characters that are no whitespace. -/
def takeWord : List Char → List Char × List Char
  | [] => ([], [])
  | c :: cs =>
    if isSpace c then ([], c :: cs)
    else (c :: (takeWord cs).1, (takeWord cs).2)

/-- Model of `operator>>(std::istream &, std::string &)`: skip whitespace, take the
characters up to the next whitespace; the extraction fails when no character is left. -/
def readString (s : List Char) : Option (List Char × List Char) :=
  let w := takeWord (skipSpace s)
  if w.1 = [] then none else some w

/-- Model of `std::cin >> H >> N >> t; if (!std::cin) break;` on the unread input: `none`
when the stream has failed, else the record and the unread rest. -/
def readRecord (s : List Char) : Option (Readout × List Char) :=
  match readInt s with
  | none => none
  | some (H, r1) =>
    match readInt r1 with
    | none => none
    | some (N, r2) =>
      match readString r2 with
      | none => none
      | some (t, r3) => some (⟨H, N, t⟩, r3)

/-- The records read by the `while (true)` loop before the stream fails, with a bound on
the number of iterations. -/
def readRecordsAux : Nat → List Char → List Readout
  | 0, _ => []
  | fuel + 1, s =>
    match readRecord s with
    | none => []
    | some (r, rest) => r :: readRecordsAux fuel rest

/-- The records read from standard input: every record takes at least one character, so
the length of the input bounds the number of iterations. -/
def readRecords (input : List Char) : List Readout :=
  readRecordsAux input.length input

/-- The indices written by a loop `for (i = 0; i < S.size(); i++) if (...) cout << ' ' << i`,
for the characters from position `i` on; `keep` is the test on `S[i]`. -/
def groupLoop (keep : Char → Bool) : List Char → Nat → List Nat
  | [], _ => []
  | c :: cs, i =>
    if keep c then i :: groupLoop keep cs (i + 1) else groupLoop keep cs (i + 1)

/-- The indices written after `Group A:`, those with `S[i] == S[0]`. -/
def groupA (S : List Char) : List Nat :=
  match S with
  | [] => []
  | s0 :: _ => groupLoop (fun c => decide (c = s0)) S 0

/-- The indices written after `Group B:`, those with `S[i] != S[0]`. -/
def groupB (S : List Char) : List Nat :=
  match S with
  | [] => []
  | s0 :: _ => groupLoop (fun c => decide (c ≠ s0)) S 0

/-- The text written for a list of indices: each one after a blank. -/
def printIndices (l : List Nat) : String :=
  l.foldl (fun out i => out ++ " " ++ toString i) ""

/-- The text written for one solution `S`. -/
def reportSolution (S : List Char) : String :=
  "Group A:" ++ printIndices (groupA S) ++ "\nGroup B:" ++ printIndices (groupB S) ++ "\n\n"

/-- Model of `parse_result` on the characters of standard input: the text written to
standard output and the returned status. -/
def parse_result (input : List Char) : String × Int :=
  let st := resultLoop (readRecords input)
  if st.solutions.isEmpty then ("No solutions found\n", 4)
  else (st.solutions.foldl (fun out S => out ++ reportSolution S) "", 0)

/-! ## Vocabulary of the specification -/

/-- The edges given by the accepted lines of an input, in input order: a line that is not
ignored and from which two indices are read gives the pair of those indices. -/
def acceptedEdges (lines : List (List Char)) : List (Int × Int) :=
  lines.filterMap fun line => if ignored line then none else parseTwo line

/-- The indices written on a list of edges. -/
def endpoints : List (Int × Int) → List Int
  | [] => []
  | e :: es => e.1 :: e.2 :: endpoints es

/-- The node indices that appear on the accepted lines of an input. -/
def nodesOf (lines : List (List Char)) : List Int := endpoints (acceptedEdges lines)

/-- An integer token: an optional sign followed by at least one decimal digit. -/
def IntToken (tok : List Char) : Prop :=
  ∃ sg ds, tok = sg ++ ds ∧ (sg = [] ∨ sg = ['+'] ∨ sg = ['-']) ∧ ds ≠ [] ∧
    ∀ c ∈ ds, isDigit c = true

/-- After optional whitespace, `s` begins with an integer token, which ends where `rest`
starts (no digit follows it). -/
def BeginsWithInt (s rest : List Char) : Prop :=
  ∃ ws tok, s = ws ++ tok ++ rest ∧ (∀ c ∈ ws, isSpace c = true) ∧ IntToken tok ∧
    ∀ c r, rest = c :: r → isDigit c = false

/-- After optional whitespace, `s` begins with an integer token of value `v`, which ends
where `rest` starts: an optional sign, then decimal digits, as many as there are. -/
def BeginsWithIntValue (s : List Char) (v : Int) (rest : List Char) : Prop :=
  ∃ ws sg ds, s = ws ++ sg ++ ds ++ rest ∧ (∀ c ∈ ws, isSpace c = true) ∧
    (sg = [] ∨ sg = ['+'] ∨ sg = ['-']) ∧ ds ≠ [] ∧ (∀ c ∈ ds, isDigit c = true) ∧
    (∀ c r, rest = c :: r → isDigit c = false) ∧
    v = (if sg = ['-'] then - (digitsValue ds : Int) else (digitsValue ds : Int))

/-- The value fits in `int`. -/
def InIntRange (v : Int) : Prop := -2147483648 ≤ v ∧ v ≤ 2147483647

/-- The line begins with two integer tokens in `int` range, of values `x` and `y`. -/
def LineGives (line : List Char) (x y : Int) : Prop :=
  ∃ r1 r2, BeginsWithIntValue line x r1 ∧ BeginsWithIntValue r1 y r2 ∧
    InIntRange x ∧ InIntRange y

/-- After optional whitespace, `s` begins with the word `t`, which ends where `rest`
starts: characters that are no whitespace, as many as there are. -/
def BeginsWithWord (s t rest : List Char) : Prop :=
  ∃ ws, s = ws ++ t ++ rest ∧ (∀ c ∈ ws, isSpace c = true) ∧ t ≠ [] ∧
    (∀ c ∈ t, isSpace c = false) ∧ ∀ c r, rest = c :: r → isSpace c = true

/-- The input begins with a well-formed triple `energy groupSize bitString`, the record
`r`, which ends where `rest` starts: two integer tokens in `int` range and a word. -/
def BeginsWithRecord (s : List Char) (r : Readout) (rest : List Char) : Prop :=
  ∃ r1 r2, BeginsWithIntValue s r.H r1 ∧ InIntRange r.H ∧
    BeginsWithIntValue r1 r.N r2 ∧ InIntRange r.N ∧ BeginsWithWord r2 r.t rest

/-- The well-formed prefix of an input: the triples it begins with, one after the other,
up to the first place where no well-formed triple follows. -/
inductive WellFormedPrefix : List Char → List Readout → Prop where
  | stop (s : List Char) :
      (∀ r rest, ¬ BeginsWithRecord s r rest) → WellFormedPrefix s []
  | step (s : List Char) (r : Readout) (rest : List Char) (rs : List Readout) :
      BeginsWithRecord s r rest → WellFormedPrefix rest rs → WellFormedPrefix s (r :: rs)

/-- The text of the specification for one solution `S`: a line `Group A:` listing in
ascending order the indices `i` with `S[i] = S[0]`, a line `Group B:` listing the other
indices in ascending order, each index after a blank, and an empty line. -/
def referenceReport (S : List Char) : String :=
  "Group A:" ++
    String.join (((List.range S.length).filter (fun i => decide (S[i]? = S[0]?))).map
      (fun i => " " ++ toString i)) ++
  "\nGroup B:" ++
    String.join (((List.range S.length).filter (fun i => decide (S[i]? ≠ S[0]?))).map
      (fun i => " " ++ toString i)) ++
  "\n\n"

/-- The complement of a string over the two symbols `a` and `b` is its image under this
renaming, which exchanges the two symbols. -/
def swapSymbols (a b : Char) (c : Char) : Char :=
  if c = a then b else if c = b then a else c

/-- The error kinds of the specification. -/
inductive ErrorKind where
  | ParseError
  | DuplicateEdgeError
  | DiscontinuityError
  | EmptyGraphError
  | OddNodeCountError
deriving DecidableEq, Repr

/-- Kind of each thrown string. -/
def QxtError.kind : QxtError → ErrorKind
  | .badIndices _ => .ParseError
  | .edgeRepetition _ => .DuplicateEdgeError
  | .nodeZero => .DiscontinuityError
  | .nodeGap _ => .DiscontinuityError
  | .noEdges => .EmptyGraphError
  | .oddNodes => .OddNodeCountError

/-- The reference sequence of coefficient records of the specification: for each `idx`
from `0` to `N - 1` the diagonal record, then for each `j` from `idx + 1` to `N - 1` the
record with weight `N - 1` when `j` is a neighbor of `idx` and `N` otherwise. -/
def referenceRecords (g : Graph) (N : Nat) : List Record :=
  ((List.range N).map fun (idx : Nat) =>
    ((idx : Int), (idx : Int), (0 : Int)) ::
      (List.Ico (idx + 1) N).map fun (j : Nat) =>
        ((idx : Int), (j : Int),
          if (j : Int) ∈ neighbors g (idx : Int) then (N : Int) - 1 else (N : Int))).flatten

/-! ## Invariants of the loops -/

/-- What the state of `parse_result` holds after the records `recs`. -/
def ResultInv (recs : List Readout) (st : ResultState) : Prop :=
  (st.solutions = [] ↔ ∀ r ∈ recs, ¬ Balanced r.t) ∧
  (st.solutions ≠ [] →
    (∃ r ∈ recs, Balanced r.t ∧ r.H = st.bestH) ∧
    (∀ r ∈ recs, Balanced r.t → st.bestH ≤ r.H) ∧
    ∀ s, s ∈ st.solutions ↔ ∃ r ∈ recs, Balanced r.t ∧ r.H = st.bestH ∧ canonical r.t = s)

/-- The keys of the map are strictly ascending. -/
def SortedKeys (g : Graph) : Prop := (keys g).Pairwise (· < ·)

/-- What `edges` and `check` hold once the edges `es` have been recorded. -/
def StateInv (es : List (Int × Int)) (st : EdgeState) : Prop :=
  SortedKeys st.edges ∧
  (∀ k, k ∈ keys st.edges ↔ k ∈ endpoints es) ∧
  (∀ a b, b ∈ neighbors st.edges a ↔ (a, b) ∈ es ∨ (b, a) ∈ es) ∧
  (∀ a b, (a, b) ∈ st.check ↔ (a, b) ∈ es ∨ (b, a) ∈ es)

/-! ## Sample inputs -/

/-- The three records of the result parser scenario. -/
def sampleReadouts : List Readout :=
  [⟨5, 2, "0011".toList⟩, ⟨5, 2, "0101".toList⟩, ⟨3, 2, "0110".toList⟩]

/-- An edge list with a self-loop: node 0 joined to itself and to node 1. -/
def loopLines : List (List Char) := ["0 0".toList, "0 1".toList]

/-- The graph read from `loopLines`. -/
def loopGraph : Graph := [(0, [0, 1]), (1, [0])]

/-- Two isolated nodes, each declared by a self-loop. -/
def isolatedLines : List (List Char) := ["0 0".toList, "1 1".toList]

/-- The nodes 0, 1 and 3, node 2 missing. -/
def gapLines : List (List Char) := ["0 1".toList, "1 3".toList]

/-- The containers after `gapLines`. -/
def gapState : EdgeState :=
  ⟨[(0, [1]), (1, [0, 3]), (3, [1])], [(0, 1), (1, 0), (1, 3), (3, 1)]⟩

/-- Three lines that are all ignored. -/
def ignoredLines : List (List Char) := ["".toList, "# no edges".toList, "\r".toList]

/-- A path over the three nodes 0, 1, 2. -/
def oddLines : List (List Char) := ["0 1".toList, "1 2".toList]

/-- The containers after `oddLines`. -/
def oddState : EdgeState :=
  ⟨[(0, [1]), (1, [0, 2]), (2, [1])], [(0, 1), (1, 0), (1, 2), (2, 1)]⟩

/-- A comment, then one edge between the nodes 0 and 1. -/
def edgeLines : List (List Char) := ["# edges".toList, "0 1".toList]

/-- One edge between the least and the greatest `int`. -/
def extremeLines : List (List Char) := ["-2147483648 2147483647".toList]

/-! ## Facts about the ordered containers -/

theorem mem_setInsert {α : Type} [DecidableEq α] (lt : α → α → Bool) (a x : α) (l : List α) :
    x ∈ setInsert lt a l ↔ x = a ∨ x ∈ l := by
  induction l with
  | nil => simp [setInsert]
  | cons b bs ih =>
    unfold setInsert
    split
    · simp
    · split
      · rename_i h; subst h; simp
      · simp only [List.mem_cons, ih]; tauto

theorem setInsert_ne_nil {α : Type} [DecidableEq α] (lt : α → α → Bool) (a : α) (l : List α) :
    setInsert lt a l ≠ [] := by
  intro h
  have : a ∈ setInsert lt a l := (mem_setInsert lt a a l).2 (Or.inl rfl)
  rw [h] at this; simp at this

theorem strLt_irrefl (s : List Char) : strLt s s = false := by
  induction s with
  | nil => rfl
  | cons c cs ih => simp [strLt, ih]

/-! ## parse_result: the rebuilt string -/

theorem rebuildLoop_eq (t0 : Char) (cs : List Char) (n : Nat) (s : List Char) :
    rebuildLoop t0 cs (n, s) =
      (n + cs.count t0, s ++ cs.map (fun c => if c = t0 then '0' else '1')) := by
  induction cs generalizing n s with
  | nil => simp [rebuildLoop]
  | cons c cs ih =>
    unfold rebuildLoop
    by_cases h : c = t0
    · subst h; simp [ih]; omega
    · have h2 : ¬ (c == t0) = true := by simpa using h
      simp [h, ih, List.count_cons, h2]

theorem canonical_eq_map (t0 : Char) (cs : List Char) :
    canonical (t0 :: cs) = (t0 :: cs).map (fun c => if c = t0 then '0' else '1') := by
  simp [canonical, rebuild, rebuildLoop_eq]

theorem rebuild_fst (t0 : Char) (cs : List Char) :
    (rebuild (t0 :: cs)).1 = (t0 :: cs).count t0 := by
  simp [rebuild, rebuildLoop_eq]

theorem count_zero_map (t0 : Char) (l : List Char) :
    (l.map (fun c => if c = t0 then '0' else '1')).count '0' = l.count t0 := by
  induction l with
  | nil => rfl
  | cons c cs ih =>
    by_cases h : c = t0
    · subst h; simp [ih]
    · have h2 : ¬ (c == t0) = true := by simpa using h
      simp [List.count_cons, h, h2, ih]

theorem rebuild_fst_eq_count (t : List Char) :
    (rebuild t).1 = (canonical t).count '0' := by
  cases t with
  | nil => rfl
  | cons t0 cs => rw [canonical_eq_map, count_zero_map, rebuild_fst]

theorem canonical_length (t : List Char) : (canonical t).length = t.length := by
  cases t with
  | nil => rfl
  | cons t0 cs => rw [canonical_eq_map]; simp

/-- The test `cntr * 2 != s.size()` of the code rejects exactly the unbalanced strings. -/
theorem balanced_iff_check (t : List Char) :
    Balanced t ↔ (rebuild t).1 * 2 = (rebuild t).2.length := by
  rw [rebuild_fst_eq_count]
  show 2 * _ = _ ↔ _ * 2 = (canonical t).length
  omega

theorem resultStep_of_not_balanced (st : ResultState) (r : Readout) (h : ¬ Balanced r.t) :
    resultStep st r = st := by
  rw [balanced_iff_check] at h
  simp [resultStep, h]

theorem resultStep_of_balanced (st : ResultState) (r : Readout) (h : Balanced r.t) :
    resultStep st r =
      if st.solutions = [] then ⟨r.H, [canonical r.t]⟩
      else if r.H > st.bestH then st
      else if r.H = st.bestH then ⟨st.bestH, setInsert strLt (canonical r.t) st.solutions⟩
      else ⟨r.H, [canonical r.t]⟩ := by
  rw [balanced_iff_check] at h
  by_cases he : st.solutions = []
  · simp [resultStep, h, he, setInsert, canonical, strLt_irrefl]
  · simp [resultStep, h, he, setInsert, canonical]

theorem resultLoop_append (l : List Readout) (r : Readout) :
    resultLoop (l ++ [r]) = resultStep (resultLoop l) r := by
  simp [resultLoop, List.foldl_append]

theorem resultInv_step (recs : List Readout) (st : ResultState) (r : Readout)
    (h : ResultInv recs st) : ResultInv (recs ++ [r]) (resultStep st r) := by
  obtain ⟨h1, h2⟩ := h
  by_cases hb : Balanced r.t
  · rw [resultStep_of_balanced st r hb]
    by_cases he : st.solutions = []
    · have hno := h1.1 he
      simp only [he, if_true]
      refine ⟨?_, fun _ => ⟨⟨r, by simp, hb, rfl⟩, ?_, ?_⟩⟩
      · constructor
        · intro h; simp at h
        · intro h; exact absurd hb (h r (by simp))
      · intro r' hr' hb'
        rcases List.mem_append.1 hr' with h | h
        · exact absurd hb' (hno r' h)
        · simp at h; subst h; exact le_refl _
      · intro s
        constructor
        · intro hs; simp at hs; exact ⟨r, by simp, hb, rfl, hs.symm⟩
        · rintro ⟨r', hr', hb', _, hc⟩
          rcases List.mem_append.1 hr' with h | h
          · exact absurd hb' (hno r' h)
          · simp at h; subst h; simp [hc]
    · obtain ⟨⟨r0, hr0, hb0, hH0⟩, hmin, hsol⟩ := h2 he
      simp only [he, if_false]
      by_cases hgt : r.H > st.bestH
      · simp only [hgt, if_true]
        refine ⟨?_, fun _ => ⟨⟨r0, by simp [hr0], hb0, hH0⟩, ?_, ?_⟩⟩
        · constructor
          · intro h; exact absurd h he
          · intro h; exact absurd hb (h r (by simp))
        · intro r' hr' hb'
          rcases List.mem_append.1 hr' with h | h
          · exact hmin r' h hb'
          · simp at h; subst h; exact le_of_lt hgt
        · intro s
          rw [hsol s]
          constructor
          · rintro ⟨r', hr', hb', hH', hc⟩
            exact ⟨r', by simp [hr'], hb', hH', hc⟩
          · rintro ⟨r', hr', hb', hH', hc⟩
            rcases List.mem_append.1 hr' with h | h
            · exact ⟨r', h, hb', hH', hc⟩
            · simp at h; subst h; omega
      · simp only [hgt, if_false]
        by_cases heq : r.H = st.bestH
        · simp only [heq, if_true]
          refine ⟨?_, fun _ => ⟨⟨r0, by simp [hr0], hb0, hH0⟩, ?_, ?_⟩⟩
          · constructor
            · intro h; exact absurd h (setInsert_ne_nil _ _ _)
            · intro h; exact absurd hb (h r (by simp))
          · intro r' hr' hb'
            rcases List.mem_append.1 hr' with h | h
            · exact hmin r' h hb'
            · simp at h; subst h; exact le_of_eq heq.symm
          · intro s
            rw [mem_setInsert, hsol s]
            constructor
            · rintro (h | ⟨r', hr', hb', hH', hc⟩)
              · exact ⟨r, by simp, hb, heq, h.symm⟩
              · exact ⟨r', by simp [hr'], hb', hH', hc⟩
            · rintro ⟨r', hr', hb', hH', hc⟩
              rcases List.mem_append.1 hr' with h | h
              · exact Or.inr ⟨r', h, hb', hH', hc⟩
              · simp at h; subst h; exact Or.inl hc.symm
        · simp only [heq, if_false]
          have hlt : r.H < st.bestH := by omega
          refine ⟨?_, fun _ => ⟨⟨r, by simp, hb, rfl⟩, ?_, ?_⟩⟩
          · constructor
            · intro h; simp at h
            · intro h; exact absurd hb (h r (by simp))
          · intro r' hr' hb'
            rcases List.mem_append.1 hr' with h | h
            · have := hmin r' h hb'; show r.H ≤ r'.H; omega
            · simp at h; subst h; exact le_refl _
          · intro s
            constructor
            · intro hs; simp at hs; exact ⟨r, by simp, hb, rfl, hs.symm⟩
            · rintro ⟨r', hr', hb', hH', hc⟩
              rcases List.mem_append.1 hr' with h | h
              · have := hmin r' h hb'
                have hH'' : r'.H = r.H := hH'
                omega
              · simp at h; subst h; simp [hc]
  · rw [resultStep_of_not_balanced st r hb]
    refine ⟨?_, fun hne => ?_⟩
    · rw [h1]
      constructor
      · intro h r' hr'
        rcases List.mem_append.1 hr' with h' | h'
        · exact h r' h'
        · simp at h'; subst h'; exact hb
      · intro h r' hr'; exact h r' (by simp [hr'])
    · obtain ⟨⟨r0, hr0, hb0, hH0⟩, hmin, hsol⟩ := h2 hne
      refine ⟨⟨r0, by simp [hr0], hb0, hH0⟩, ?_, ?_⟩
      · intro r' hr' hb'
        rcases List.mem_append.1 hr' with h | h
        · exact hmin r' h hb'
        · simp at h; subst h; exact absurd hb' hb
      · intro s
        rw [hsol s]
        constructor
        · rintro ⟨r', hr', hb', hH', hc⟩
          exact ⟨r', by simp [hr'], hb', hH', hc⟩
        · rintro ⟨r', hr', hb', hH', hc⟩
          rcases List.mem_append.1 hr' with h | h
          · exact ⟨r', h, hb', hH', hc⟩
          · simp at h; subst h; exact absurd hb' hb

theorem resultInv_resultLoop (recs : List Readout) : ResultInv recs (resultLoop recs) := by
  induction recs using List.reverseRecOn with
  | nil => simp [ResultInv, resultLoop]
  | append_singleton l r ih =>
    rw [resultLoop_append]; exact resultInv_step l _ r ih

/-- C1: after any sequence of records with non-empty bit strings of which at least one is
balanced, `bestH` is the least energy of a balanced record (it is attained, and no balanced
record lies below it), and the solution set holds exactly the canonical strings of the
balanced records with that energy. -/
theorem parse_result_best_solutions (records : List Readout)
    (hne : ∀ r ∈ records, r.t ≠ [])
    (hbal : ∃ r ∈ records, Balanced r.t) :
    (∃ r ∈ records, Balanced r.t ∧ r.H = (resultLoop records).bestH) ∧
    (∀ r ∈ records, Balanced r.t → (resultLoop records).bestH ≤ r.H) ∧
    (∀ s, s ∈ (resultLoop records).solutions ↔
      ∃ r ∈ records, Balanced r.t ∧ r.H = (resultLoop records).bestH ∧ canonical r.t = s) := by
  have _ := hne
  obtain ⟨h1, h2⟩ := resultInv_resultLoop records
  apply h2
  intro h
  obtain ⟨r, hr, hb⟩ := hbal
  exact h1.1 h r hr hb

/-! ## The map `edges` -/

theorem mem_keys_edgesInsert (x y k : Int) (g : Graph) :
    k ∈ keys (edgesInsert x y g) ↔ k = x ∨ k ∈ keys g := by
  induction g with
  | nil => simp [edgesInsert, keys]
  | cons e g ih =>
    obtain ⟨k0, s0⟩ := e
    unfold edgesInsert
    split
    · simp [keys]
    · split
      · rename_i h; subst h; simp [keys]
      · simp only [keys, List.map_cons, List.mem_cons] at ih ⊢
        rw [ih]; tauto

theorem sortedKeys_edgesInsert (x y : Int) (g : Graph) (h : SortedKeys g) :
    SortedKeys (edgesInsert x y g) := by
  induction g with
  | nil => simp [edgesInsert, SortedKeys, keys]
  | cons e g ih =>
    obtain ⟨k0, s0⟩ := e
    have h' : (∀ a ∈ keys g, k0 < a) ∧ SortedKeys g := by
      simpa [SortedKeys, keys] using h
    unfold edgesInsert
    split
    · rename_i hlt
      simp only [SortedKeys, keys, List.map_cons, List.pairwise_cons, List.mem_cons]
      refine ⟨?_, ?_⟩
      · intro a ha
        rcases ha with ha | ha
        · rw [ha]; exact hlt
        · exact lt_trans hlt (h'.1 a (by simpa [keys] using ha))
      · simpa [SortedKeys, keys] using h
    · split
      · simpa [SortedKeys, keys] using h
      · rename_i hnlt hne
        have hgt : k0 < x := by omega
        show (keys ((k0, s0) :: edgesInsert x y g)).Pairwise (· < ·)
        simp only [keys, List.map_cons, List.pairwise_cons]
        refine ⟨?_, ih h'.2⟩
        intro a ha
        rcases (mem_keys_edgesInsert x y a g).1 ha with ha | ha
        · rw [ha]; exact hgt
        · exact h'.1 a ha

theorem neighbors_of_not_mem_keys (g : Graph) (x : Int) (h : x ∉ keys g) :
    neighbors g x = [] := by
  induction g with
  | nil => rfl
  | cons e g ih =>
    obtain ⟨k0, s0⟩ := e
    simp only [keys, List.map_cons, List.mem_cons, not_or] at h
    simp only [neighbors, h.1, if_false]
    exact ih (by simpa [keys] using h.2)

theorem mem_neighbors_edgesInsert (x y a b : Int) (g : Graph) (h : SortedKeys g) :
    b ∈ neighbors (edgesInsert x y g) a ↔ (a = x ∧ b = y) ∨ b ∈ neighbors g a := by
  induction g with
  | nil =>
    by_cases hax : a = x
    · simp [edgesInsert, neighbors, hax, setInsert]
    · simp [edgesInsert, neighbors, hax]
  | cons e g ih =>
    obtain ⟨k0, s0⟩ := e
    have h' : (∀ c ∈ keys g, k0 < c) ∧ SortedKeys g := by
      simpa [SortedKeys, keys] using h
    unfold edgesInsert
    split
    · rename_i hlt
      by_cases hax : a = x
      · subst hax
        have hk : a ≠ k0 := by omega
        have hnot : a ∉ keys g := fun hm => by have := h'.1 a hm; omega
        simp [neighbors, hk, neighbors_of_not_mem_keys g a hnot, setInsert]
      · simp [neighbors, hax]
    · split
      · rename_i hnlt heq
        subst heq
        by_cases hax : a = x
        · subst hax; simp [neighbors, mem_setInsert]
        · simp [neighbors, hax]
      · rename_i hnlt hne
        by_cases hak : a = k0
        · subst hak
          have : a ≠ x := fun e => hne e.symm
          simp [neighbors, this]
        · simp only [neighbors, hak, if_false]
          exact ih h'.2

/-! ## The line loop -/

theorem processLine_ignored (st : EdgeState) (k : Nat) (line : List Char)
    (h : ignored line = true) : processLine st k line = .ok st := by
  simp [processLine, h]

theorem processLine_bad (st : EdgeState) (k : Nat) (line : List Char)
    (h : ignored line = false) (hp : parseTwo line = none) :
    processLine st k line = .error (.badIndices k) := by
  simp [processLine, h, hp]

theorem processLine_repeated (st : EdgeState) (k : Nat) (line : List Char) (x y : Int)
    (h : ignored line = false) (hp : parseTwo line = some (x, y)) (hc : (x, y) ∈ st.check) :
    processLine st k line = .error (.edgeRepetition k) := by
  simp [processLine, h, hp, hc]

theorem processLine_recorded (st : EdgeState) (k : Nat) (line : List Char) (x y : Int)
    (h : ignored line = false) (hp : parseTwo line = some (x, y)) (hc : (x, y) ∉ st.check) :
    processLine st k line =
      .ok ⟨edgesInsert y x (edgesInsert x y st.edges),
           setInsert pairLt (y, x) (setInsert pairLt (x, y) st.check)⟩ := by
  simp [processLine, h, hp, hc]

/-- The two ways a line leaves the loop body without a throw. -/
theorem processLine_ok (st st1 : EdgeState) (k : Nat) (line : List Char)
    (h : processLine st k line = .ok st1) :
    (ignored line = true ∧ st1 = st) ∨
    (ignored line = false ∧ ∃ x y, parseTwo line = some (x, y) ∧ (x, y) ∉ st.check ∧
      st1 = ⟨edgesInsert y x (edgesInsert x y st.edges),
             setInsert pairLt (y, x) (setInsert pairLt (x, y) st.check)⟩) := by
  by_cases hi : ignored line = true
  · rw [processLine_ignored st k line hi] at h
    injection h with h
    exact Or.inl ⟨hi, h.symm⟩
  · have hi2 : ignored line = false := by simpa using hi
    right
    refine ⟨hi2, ?_⟩
    cases hp : parseTwo line with
    | none => rw [processLine_bad st k line hi2 hp] at h; cases h
    | some xy =>
      obtain ⟨x, y⟩ := xy
      by_cases hc : (x, y) ∈ st.check
      · rw [processLine_repeated st k line x y hi2 hp hc] at h; cases h
      · rw [processLine_recorded st k line x y hi2 hp hc] at h
        injection h with h
        exact ⟨x, y, rfl, hc, h.symm⟩

theorem readLoop_append (st : EdgeState) (k : Nat) (pre rest : List (List Char)) :
    readLoop st k (pre ++ rest) =
      match readLoop st k pre with
      | .error e => .error e
      | .ok st0 => readLoop st0 (k + pre.length) rest := by
  induction pre generalizing st k with
  | nil => simp [readLoop]
  | cons l ls ih =>
    simp only [List.cons_append, readLoop, List.length_cons]
    cases processLine st k l with
    | error e => simp
    | ok st1 =>
      have hk : k + (ls.length + 1) = k + 1 + ls.length := by omega
      show readLoop st1 (k + 1) (ls ++ rest) = _
      rw [ih, hk]

theorem acceptedEdges_append (pre rest : List (List Char)) :
    acceptedEdges (pre ++ rest) = acceptedEdges pre ++ acceptedEdges rest := by
  simp [acceptedEdges, List.filterMap_append]

theorem acceptedEdges_ignored (line : List Char) (h : ignored line = true) :
    acceptedEdges [line] = [] := by
  simp [acceptedEdges, h]

theorem acceptedEdges_parsed (line : List Char) (x y : Int) (h : ignored line = false)
    (hp : parseTwo line = some (x, y)) : acceptedEdges [line] = [(x, y)] := by
  simp [acceptedEdges, h, hp]

theorem mem_acceptedEdges (lines : List (List Char)) (x y : Int) :
    (x, y) ∈ acceptedEdges lines ↔
      ∃ line ∈ lines, ignored line = false ∧ parseTwo line = some (x, y) := by
  simp only [acceptedEdges, List.mem_filterMap]
  constructor
  · rintro ⟨l, hl, h⟩
    by_cases hi : ignored l = true
    · simp [hi] at h
    · have hi2 : ignored l = false := by simpa using hi
      simp only [hi2] at h
      exact ⟨l, hl, hi2, by simpa using h⟩
  · rintro ⟨l, hl, hi, hp⟩
    exact ⟨l, hl, by simp [hi, hp]⟩

theorem nodesOf_def (lines : List (List Char)) :
    nodesOf lines = endpoints (acceptedEdges lines) := rfl

theorem mem_endpoints (es : List (Int × Int)) (k : Int) :
    k ∈ endpoints es ↔ ∃ a b, (a, b) ∈ es ∧ (k = a ∨ k = b) := by
  induction es with
  | nil => simp [endpoints]
  | cons e es ih =>
    obtain ⟨a0, b0⟩ := e
    simp only [endpoints, List.mem_cons, ih, Prod.mk.injEq]
    constructor
    · rintro (h | h | ⟨a, b, hm, hk⟩)
      · exact ⟨a0, b0, Or.inl ⟨rfl, rfl⟩, Or.inl h⟩
      · exact ⟨a0, b0, Or.inl ⟨rfl, rfl⟩, Or.inr h⟩
      · exact ⟨a, b, Or.inr hm, hk⟩
    · rintro ⟨a, b, (⟨ha, hb⟩ | hm), hk⟩
      · subst ha; subst hb
        rcases hk with hk | hk
        · exact Or.inl hk
        · exact Or.inr (Or.inl hk)
      · exact Or.inr (Or.inr ⟨a, b, hm, hk⟩)

theorem stateInv_init : StateInv [] ⟨[], []⟩ := by
  simp [StateInv, SortedKeys, keys, endpoints, neighbors]

theorem stateInv_record (es : List (Int × Int)) (st : EdgeState) (x y : Int)
    (h : StateInv es st) :
    StateInv (es ++ [(x, y)])
      ⟨edgesInsert y x (edgesInsert x y st.edges),
       setInsert pairLt (y, x) (setInsert pairLt (x, y) st.check)⟩ := by
  obtain ⟨hs, hk, hn, hc⟩ := h
  have hs1 := sortedKeys_edgesInsert x y st.edges hs
  refine ⟨sortedKeys_edgesInsert y x _ hs1, ?_, ?_, ?_⟩
  · intro k
    simp only [mem_keys_edgesInsert, hk, mem_endpoints, List.mem_append, List.mem_singleton,
      Prod.mk.injEq]
    constructor
    · rintro (h | h | ⟨a, b, hm, hk'⟩)
      · exact ⟨x, y, Or.inr ⟨rfl, rfl⟩, Or.inr h⟩
      · exact ⟨x, y, Or.inr ⟨rfl, rfl⟩, Or.inl h⟩
      · exact ⟨a, b, Or.inl hm, hk'⟩
    · rintro ⟨a, b, (hm | ⟨ha, hb⟩), hk'⟩
      · exact Or.inr (Or.inr ⟨a, b, hm, hk'⟩)
      · subst ha; subst hb
        rcases hk' with h | h
        · exact Or.inr (Or.inl h)
        · exact Or.inl h
  · intro a b
    rw [mem_neighbors_edgesInsert y x a b _ hs1, mem_neighbors_edgesInsert x y a b _ hs, hn]
    simp only [List.mem_append, List.mem_singleton, Prod.mk.injEq]
    tauto
  · intro a b
    simp only [mem_setInsert, hc, List.mem_append, List.mem_singleton, Prod.mk.injEq]
    tauto

theorem stateInv_processLine (pre : List (List Char)) (st st1 : EdgeState) (k : Nat)
    (line : List Char) (h : StateInv (acceptedEdges pre) st)
    (hl : processLine st k line = .ok st1) :
    StateInv (acceptedEdges (pre ++ [line])) st1 := by
  rw [acceptedEdges_append]
  rcases processLine_ok st st1 k line hl with ⟨hi, he⟩ | ⟨hi, x, y, hp, _, he⟩
  · rw [acceptedEdges_ignored line hi, List.append_nil, he]; exact h
  · rw [acceptedEdges_parsed line x y hi hp, he]; exact stateInv_record _ st x y h

theorem stateInv_readLoop (lines : List (List Char)) (st : EdgeState)
    (h : readLoop ⟨[], []⟩ 1 lines = .ok st) : StateInv (acceptedEdges lines) st := by
  induction lines using List.reverseRecOn generalizing st with
  | nil =>
    simp only [readLoop] at h
    injection h with h
    subst h
    exact stateInv_init
  | append_singleton pre line ih =>
    rw [readLoop_append] at h
    cases hpre : readLoop ⟨[], []⟩ 1 pre with
    | error e => rw [hpre] at h; cases h
    | ok st0 =>
      rw [hpre] at h
      simp only [readLoop] at h
      cases hl : processLine st0 (1 + pre.length) line with
      | error e => rw [hl] at h; cases h
      | ok st1 =>
        rw [hl] at h
        injection h with h
        subst h
        exact stateInv_processLine pre st0 st1 _ line (ih st0 hpre) hl

/-! ## The continuity check -/

theorem checkLoop_ok (c : Int) (g : Graph) (h : checkLoop c g = .ok ()) :
    keys g = (List.range g.length).map (fun i : Nat => c + 1 + (i : Int)) := by
  induction g generalizing c with
  | nil => rfl
  | cons e g ih =>
    obtain ⟨idx, s0⟩ := e
    unfold checkLoop at h
    by_cases hc : c + 1 = idx
    · simp only [hc, ne_eq, not_true_eq_false, if_false] at h
      rw [← hc] at h
      have := ih (c + 1) h
      simp only [keys, List.map_cons, List.length_cons, List.range_succ_eq_map, List.map_map]
      simp only [keys] at this
      rw [this]
      simp only [Nat.cast_zero, add_zero, hc, List.cons.injEq, true_and]
      apply List.map_congr_left
      intro a _
      simp only [Function.comp, Nat.cast_succ]
      omega
    · simp only [ne_eq, hc, not_false_eq_true, if_true] at h
      split at h <;> cases h

theorem checkLoop_of_keys (c : Int) (g : Graph)
    (h : keys g = (List.range g.length).map (fun i : Nat => c + 1 + (i : Int))) :
    checkLoop c g = .ok () := by
  induction g generalizing c with
  | nil => rfl
  | cons e g ih =>
    obtain ⟨idx, s0⟩ := e
    simp only [keys, List.map_cons, List.length_cons, List.range_succ_eq_map, List.map_map,
      Nat.cast_zero, add_zero, List.cons.injEq] at h
    unfold checkLoop
    simp only [h.1, ne_eq, not_true_eq_false, if_false]
    rw [← h.1]
    apply ih
    simp only [keys]
    rw [h.2]
    apply List.map_congr_left
    intro a _
    simp only [Function.comp, Nat.cast_succ]
    omega

/-- A throw of the continuity check on ascending keys, entered with counter `-1` or with
a counter below all remaining keys: it names a key whose predecessor is no key, the least
such key other than `counter + 1`; the message about node 0 is never the one thrown. -/
theorem checkLoop_error (c : Int) (g : Graph) (e : QxtError) (h : checkLoop c g = .error e)
    (hs : SortedKeys g) (hc : (∀ k ∈ keys g, c < k) ∨ c = -1) (hc0 : -1 ≤ c) :
    ∃ idx, e = .nodeGap idx ∧ idx ∈ keys g ∧ idx - 1 ∉ keys g ∧ idx ≠ c + 1 ∧
      ∀ k ∈ keys g, k ≠ c + 1 → k - 1 ∉ keys g → idx ≤ k := by
  induction g generalizing c with
  | nil => cases h
  | cons e0 g ih =>
    obtain ⟨i0, s0⟩ := e0
    have hs' : (∀ a ∈ keys g, i0 < a) ∧ SortedKeys g := by
      simpa [SortedKeys, keys] using hs
    unfold checkLoop at h
    by_cases hne : c + 1 = i0
    · simp only [hne, ne_eq, not_true_eq_false, if_false] at h
      rw [← hne] at h
      have hc' : ∀ k ∈ keys g, c + 1 < k := fun k hk => by rw [hne]; exact hs'.1 k hk
      obtain ⟨idx, he, hm, hp, hlt, hmin⟩ := ih (c + 1) h hs'.2 (Or.inl hc') (by omega)
      have hgt := hc' idx hm
      refine ⟨idx, he, by simp [keys] at hm ⊢; exact Or.inr hm, ?_, by omega, ?_⟩
      · intro hmem
        simp only [keys, List.map_cons, List.mem_cons] at hmem
        rcases hmem with hmem | hmem
        · omega
        · exact hp (by simpa [keys] using hmem)
      · intro k hk hk1 hk2
        simp only [keys, List.map_cons, List.mem_cons] at hk
        rcases hk with hk | hk
        · omega
        · have hkg : k ∈ keys g := by simpa [keys] using hk
          apply hmin k hkg
          · intro heq
            apply hk2
            simp only [keys, List.map_cons, List.mem_cons]
            left; omega
          · intro hmem
            apply hk2
            simp only [keys, List.map_cons, List.mem_cons]
            right; simpa [keys] using hmem
    · simp only [ne_eq, hne, not_false_eq_true, if_true] at h
      have hi0 : i0 ≠ 0 := by
        rcases hc with hc | hc
        · have := hc i0 (by simp [keys]); omega
        · omega
      simp only [hi0, if_false] at h
      injection h with h
      refine ⟨i0, h.symm, by simp [keys], ?_, fun h => hne h.symm, ?_⟩
      · intro hmem
        simp only [keys, List.map_cons, List.mem_cons] at hmem
        rcases hmem with hmem | hmem
        · omega
        · have := hs'.1 (i0 - 1) (by simpa [keys] using hmem); omega
      · intro k hk _ _
        simp only [keys, List.map_cons, List.mem_cons] at hk
        rcases hk with hk | hk
        · omega
        · have := hs'.1 k (by simpa [keys] using hk); omega

/-- The parts of a successful run of the parsing stage. -/
theorem parseEdges_ok (lines : List (List Char)) (g : Graph) (N : Nat)
    (h : parseEdges lines = .ok (g, N)) :
    ∃ st, readLoop ⟨[], []⟩ 1 lines = .ok st ∧ st.edges = g ∧
      checkLoop (-1) g = .ok () ∧ N = g.length ∧ N ≠ 0 ∧ N % 2 = 0 := by
  unfold parseEdges at h
  cases hr : readLoop ⟨[], []⟩ 1 lines with
  | error e => rw [hr] at h; cases h
  | ok st =>
    rw [hr] at h
    simp only at h
    cases hc : checkLoop (-1) st.edges with
    | error e => rw [hc] at h; cases h
    | ok u =>
      rw [hc] at h
      simp only at h
      by_cases h0 : st.edges.length = 0
      · simp [h0] at h
      · by_cases h2 : st.edges.length % 2 = 0
        · simp only [h0, h2, if_false, ne_eq, not_true_eq_false] at h
          injection h with h
          injection h with hg hN
          subst hg
          exact ⟨st, rfl, rfl, hc, hN.symm, by omega, by omega⟩
        · simp [h0, h2] at h

theorem parseEdges_check_error (lines : List (List Char)) (st : EdgeState) (e : QxtError)
    (hr : readLoop ⟨[], []⟩ 1 lines = .ok st) (hc : checkLoop (-1) st.edges = .error e) :
    parseEdges lines = .error e := by
  simp [parseEdges, hr, hc]

theorem keys_of_parseEdges (lines : List (List Char)) (g : Graph) (N : Nat)
    (h : parseEdges lines = .ok (g, N)) :
    keys g = (List.range N).map (fun i : Nat => (i : Int)) := by
  obtain ⟨st, _, _, hc, hN, _, _⟩ := parseEdges_ok lines g N h
  rw [checkLoop_ok (-1) g hc, hN]
  apply List.map_congr_left
  intro a _
  omega

theorem mem_range_cast (N : Nat) (k : Int) :
    k ∈ (List.range N).map (fun i : Nat => (i : Int)) ↔ 0 ≤ k ∧ k < N := by
  simp only [List.mem_map, List.mem_range]
  constructor
  · rintro ⟨i, hi, rfl⟩; omega
  · rintro ⟨h0, h1⟩; exact ⟨k.toNat, by omega, by omega⟩

/-- The message about node 0 is never the one `main` throws. -/
theorem parseEdges_ne_nodeZero (lines : List (List Char)) :
    parseEdges lines ≠ .error .nodeZero := by
  intro h
  unfold parseEdges at h
  cases hr : readLoop ⟨[], []⟩ 1 lines with
  | error e =>
    rw [hr] at h
    injection h with h
    subst h
    -- the line loop throws only the two line errors
    have key : ∀ (ls : List (List Char)) (st : EdgeState) (k : Nat),
        readLoop st k ls ≠ .error .nodeZero := by
      intro ls
      induction ls with
      | nil => intro st k h; cases h
      | cons l ls ih =>
        intro st k h
        simp only [readLoop] at h
        cases hp : processLine st k l with
        | error e =>
          rw [hp] at h
          injection h with h
          subst h
          unfold processLine at hp
          split at hp
          · cases hp
          · split at hp
            · cases hp
            · split at hp <;> cases hp
        | ok st1 => rw [hp] at h; exact ih st1 (k + 1) h
    exact key lines _ _ hr
  | ok st =>
    rw [hr] at h
    simp only at h
    cases hc : checkLoop (-1) st.edges with
    | error e =>
      rw [hc] at h
      injection h with h
      subst h
      have hinv := stateInv_readLoop lines st hr
      obtain ⟨idx, he, _⟩ :=
        checkLoop_error (-1) st.edges _ hc hinv.1 (Or.inr rfl) (le_refl _)
      cases he
    | ok u =>
      rw [hc] at h
      simp only at h
      split at h
      · cases h
      · split at h <;> cases h

theorem readLoop_ok_split (st0 stf : EdgeState) (k : Nat) (pre post : List (List Char))
    (line : List Char) (h : readLoop st0 k (pre ++ line :: post) = .ok stf) :
    ∃ st st1, readLoop st0 k pre = .ok st ∧ processLine st (k + pre.length) line = .ok st1 ∧
      readLoop st1 (k + pre.length + 1) post = .ok stf := by
  rw [readLoop_append] at h
  cases hpre : readLoop st0 k pre with
  | error e => rw [hpre] at h; cases h
  | ok st =>
    rw [hpre] at h
    simp only [readLoop] at h
    cases hl : processLine st (k + pre.length) line with
    | error e => rw [hl] at h; cases h
    | ok st1 =>
      rw [hl] at h
      exact ⟨st, st1, rfl, hl, h⟩

/-! ## Claims on the edge list parser -/

/-- C4: on every sequence of input lines the parsing stage either throws one of the
documented error kinds, or returns a graph whose keys are exactly `0, 1, ..., N - 1`,
where `N` is the number of keys, `N` is positive and `N` is even. -/
theorem parseEdges_keys_contiguous_even (lines : List (List Char)) :
    (∃ e, parseEdges lines = .error e ∧
      e.kind ∈ [ErrorKind.ParseError, ErrorKind.DuplicateEdgeError,
        ErrorKind.DiscontinuityError, ErrorKind.EmptyGraphError,
        ErrorKind.OddNodeCountError]) ∨
    (∃ g N, parseEdges lines = .ok (g, N) ∧ (keys g).length = N ∧
      keys g = (List.range N).map (fun i : Nat => (i : Int)) ∧
      (∀ k : Int, k ∈ keys g ↔ 0 ≤ k ∧ k < N) ∧ 0 < N ∧ N % 2 = 0) := by
  cases h : parseEdges lines with
  | error e =>
    left
    refine ⟨e, rfl, ?_⟩
    cases e <;> simp [QxtError.kind]
  | ok r =>
    right
    obtain ⟨g, N⟩ := r
    obtain ⟨st, _, _, _, hN, h0, h2⟩ := parseEdges_ok lines g N h
    have hk := keys_of_parseEdges lines g N h
    refine ⟨g, N, rfl, by simp [keys, hN], hk, ?_, by omega, h2⟩
    intro k
    rw [hk]
    exact mem_range_cast N k

/-- C5: after a successful parse, `y` is in the neighbor set of `x` exactly when some
accepted line is `(x, y)` or `(y, x)`; so the adjacency is symmetric; and an accepted line
`(x, x)` makes `x` a key, the step that records it adding no neighbor but `x` to `x`. -/
theorem adjacency_of_accepted_lines (lines : List (List Char)) (g : Graph) (N : Nat)
    (h : parseEdges lines = .ok (g, N)) :
    (∀ x y, y ∈ neighbors g x ↔
      (x, y) ∈ acceptedEdges lines ∨ (y, x) ∈ acceptedEdges lines) ∧
    (∀ x y, y ∈ neighbors g x ↔ x ∈ neighbors g y) ∧
    (∀ pre line post x, lines = pre ++ line :: post → ignored line = false →
      parseTwo line = some (x, x) →
      x ∈ keys g ∧
      ∃ st st1, readLoop ⟨[], []⟩ 1 pre = .ok st ∧
        processLine st (pre.length + 1) line = .ok st1 ∧ x ∈ keys st1.edges ∧
        ∀ a b, b ∈ neighbors st1.edges a ↔ b ∈ neighbors st.edges a ∨ (a = x ∧ b = x)) := by
  obtain ⟨stf, hr, hg, _, _, _, _⟩ := parseEdges_ok lines g N h
  obtain ⟨_, hkeys, hn, _⟩ := stateInv_readLoop lines stf hr
  rw [hg] at hn hkeys
  refine ⟨hn, ?_, ?_⟩
  · intro x y
    rw [hn x y, hn y x]
    exact Or.comm
  · intro pre line post x hl hi hp
    subst hl
    obtain ⟨st, st1, hpre, hline, _⟩ := readLoop_ok_split _ _ _ _ _ _ hr
    have hsorted := (stateInv_readLoop pre st hpre).1
    refine ⟨?_, st, st1, hpre, by rw [Nat.add_comm]; exact hline, ?_, ?_⟩
    · rw [hkeys, mem_endpoints]
      exact ⟨x, x, (mem_acceptedEdges _ x x).2 ⟨line, by simp, hi, hp⟩, Or.inl rfl⟩
    · rcases processLine_ok st st1 _ line hline with ⟨hi', _⟩ | ⟨_, x', y', hp', _, he⟩
      · rw [hi] at hi'; cases hi'
      · rw [hp] at hp'
        injection hp' with hp'
        injection hp' with hx hy
        subst hx; subst hy
        rw [he]
        simp [mem_keys_edgesInsert]
    · intro a b
      rcases processLine_ok st st1 _ line hline with ⟨hi', _⟩ | ⟨_, x', y', hp', _, he⟩
      · rw [hi] at hi'; cases hi'
      · rw [hp] at hp'
        injection hp' with hp'
        injection hp' with hx hy
        subst hx; subst hy
        rw [he]
        show b ∈ neighbors (edgesInsert x x (edgesInsert x x st.edges)) a ↔ _
        rw [mem_neighbors_edgesInsert x x a b _ (sortedKeys_edgesInsert x x _ hsorted),
          mem_neighbors_edgesInsert x x a b _ hsorted]
        tauto

/-- C9, the code at an input without node 0: on the single line `1 2` the continuity
check throws `Node 1 is defined, but not 0`, not `Node 0 must be defined`. -/
theorem missing_node_zero_message :
    parseEdges ["1 2".toList] = .error (.nodeGap 1) ∧
    (0 : Int) ∉ nodesOf ["1 2".toList] ∧
    (QxtError.nodeGap 1).message "edges.txt" = "Node 1 is defined, but not 0" ∧
    (QxtError.nodeGap 1).message "edges.txt" ≠ QxtError.nodeZero.message "edges.txt" := by
  decide

/-! ## The output loop -/

theorem emit_eq_flatten (N : Int) (g : Graph) : emit N g = (g.map (emitNode N)).flatten := by
  induction g with
  | nil => rfl
  | cons e g ih => simp [emit, ih]

theorem neighbors_of_mem (g : Graph) (h : (keys g).Nodup) :
    ∀ node ∈ g, neighbors g node.1 = node.2 := by
  induction g with
  | nil => intro node hn; cases hn
  | cons e g ih =>
    obtain ⟨k0, s0⟩ := e
    have h' : k0 ∉ keys g ∧ (keys g).Nodup := by simpa [keys] using h
    intro node hn
    rcases List.mem_cons.1 hn with hn | hn
    · subst hn; simp [neighbors]
    · have hne : node.1 ≠ k0 := by
        intro he
        apply h'.1
        rw [← he]
        exact List.mem_map_of_mem Prod.fst hn
      simp only [neighbors, hne, if_false]
      exact ih h'.2 node hn

theorem graph_eq_map_keys (g : Graph) (h : (keys g).Nodup) :
    g = (keys g).map (fun k => (k, neighbors g k)) := by
  have h1 : g.map (fun node => (node.1, neighbors g node.1)) = g.map id := by
    apply List.map_congr_left
    intro node hn
    rw [neighbors_of_mem g h node hn]
    rfl
  rw [List.map_id] at h1
  conv_lhs => rw [← h1]
  simp [keys, List.map_map, Function.comp]

theorem nodup_range_cast (N : Nat) : ((List.range N).map (fun i : Nat => (i : Int))).Nodup := by
  apply List.Nodup.map _ (List.nodup_range N)
  intro a b hab
  exact Int.ofNat.inj hab

/-- The lines of one entry, with the inner loop written over `j` from `idx + 1` to `N - 1`. -/
theorem emitNode_eq (N idx : Nat) (nb : List Int) :
    emitNode (N : Int) ((idx : Int), nb) =
      ((idx : Int), (idx : Int), (0 : Int)) ::
        (List.Ico (idx + 1) N).map fun (j : Nat) =>
          ((idx : Int), (j : Int), if (j : Int) ∈ nb then (N : Int) - 1 else (N : Int)) := by
  have hn : ((N : Int) - ((idx : Int) + 1)).toNat = N - (idx + 1) := by omega
  simp only [emitNode, hn, List.Ico, List.range'_eq_map_range, List.map_map, List.cons.injEq,
    true_and]
  apply List.map_congr_left
  intro k _
  simp only [Function.comp]
  have : (idx : Int) + 1 + (k : Int) = ((idx + 1 + k : Nat) : Int) := by push_cast; ring
  rw [this]

/-! ## Claims on the coefficient output -/

/-- C2: for every graph whose keys are exactly `0, ..., N - 1`, the output loop writes the
reference sequence: for each `idx` ascending the record `(idx, idx, 0)`, then for each `j`
from `idx + 1` to `N - 1` ascending the record `(idx, j, N - 1)` when `j` is a neighbor of
`idx` and `(idx, j, N)` otherwise. -/
theorem emit_eq_referenceRecords (g : Graph) (N : Nat)
    (hk : keys g = (List.range N).map (fun i : Nat => (i : Int))) :
    emit (N : Int) g = referenceRecords g N := by
  have hnd : (keys g).Nodup := by rw [hk]; exact nodup_range_cast N
  have hg := graph_eq_map_keys g hnd
  rw [emit_eq_flatten]
  conv_lhs => rw [hg, hk]
  simp only [referenceRecords, List.map_map]
  congr 1
  apply List.map_congr_left
  intro idx _
  simp only [Function.comp]
  exact emitNode_eq N idx (neighbors g idx)

theorem sum_row_lengths (m d : Nat) :
    2 * ((List.range m).map (fun idx => 1 + (m + d - (idx + 1)))).sum = m * (m + 2 * d + 1) := by
  induction m generalizing d with
  | zero => simp
  | succ m ih =>
    have hf : (List.range m).map (fun idx => 1 + (m + 1 + d - (idx + 1))) =
        (List.range m).map (fun idx => 1 + (m + (d + 1) - (idx + 1))) := by
      apply List.map_congr_left
      intro a _
      omega
    rw [List.range_succ, List.map_append, List.sum_append, hf, Nat.mul_add, ih (d + 1)]
    simp only [List.map_cons, List.map_nil, List.sum_cons, List.sum_nil]
    have : 1 + (m + 1 + d - (m + 1)) + 0 = d + 1 := by omega
    rw [this]
    ring

theorem referenceRecords_length (g : Graph) (N : Nat) :
    (referenceRecords g N).length = N * (N + 1) / 2 := by
  have h := sum_row_lengths N 0
  have hl : (referenceRecords g N).length =
      ((List.range N).map (fun idx => 1 + (N + 0 - (idx + 1)))).sum := by
    simp only [referenceRecords, List.length_flatten, List.map_map]
    congr 1
    apply List.map_congr_left
    intro a _
    simp [Function.comp, List.Ico.length]
    omega
  rw [hl]
  have h2 : N * (N + 2 * 0 + 1) = N * (N + 1) := by ring
  rw [h2] at h
  omega

theorem mem_referenceRecords (g : Graph) (N : Nat) (i j w : Int) :
    (i, j, w) ∈ referenceRecords g N ↔
      0 ≤ i ∧ i < N ∧
        ((j = i ∧ w = 0) ∨
         (i < j ∧ j < N ∧ w = if j ∈ neighbors g i then (N : Int) - 1 else (N : Int))) := by
  simp only [referenceRecords, List.mem_flatten, List.mem_map, List.mem_range]
  constructor
  · rintro ⟨l, ⟨idx, hidx, rfl⟩, hm⟩
    simp only [List.mem_cons, Prod.mk.injEq, List.mem_map, List.Ico.mem] at hm
    rcases hm with ⟨hi, hj, hw⟩ | ⟨j', ⟨hj1, hj2⟩, hi, hj, hw⟩
    · subst hi
      exact ⟨by omega, by omega, Or.inl ⟨hj, hw⟩⟩
    · subst hi; subst hj
      exact ⟨by omega, by omega, Or.inr ⟨by omega, by omega, hw.symm⟩⟩
  · rintro ⟨h0, h1, h⟩
    refine ⟨_, ⟨i.toNat, by omega, rfl⟩, ?_⟩
    have hi : ((i.toNat : Nat) : Int) = i := by omega
    simp only [List.mem_cons, Prod.mk.injEq, List.mem_map, List.Ico.mem, hi, true_and]
    rcases h with ⟨hj, hw⟩ | ⟨hj1, hj2, hw⟩
    · exact Or.inl ⟨hj, hw⟩
    · right
      refine ⟨j.toNat, ⟨by omega, by omega⟩, ?_⟩
      have hj : ((j.toNat : Nat) : Int) = j := by omega
      rw [hj]
      exact ⟨rfl, hw.symm⟩

/-- C6: a successful conversion with node count `N` writes exactly `N (N + 1) / 2`
records. -/
theorem convert_record_count (lines : List (List Char)) (g : Graph) (N : Nat)
    (h : parseEdges lines = .ok (g, N)) :
    convert lines = .ok (emit (N : Int) g) ∧ (emit (N : Int) g).length = N * (N + 1) / 2 := by
  refine ⟨by simp [convert, h], ?_⟩
  rw [emit_eq_referenceRecords g N (keys_of_parseEdges lines g N h)]
  exact referenceRecords_length g N

/-- C3, as amended: after a successful conversion with node count `N`, an accepted edge
`(x, y)` with `x ≠ y` has the record `(min x y, max x y, N - 1)` in the output; an
off-diagonal record has weight `N - 1` when an accepted line joins its two indices and
weight `N` otherwise; and every diagonal record has weight 0. -/
theorem convert_edge_weights (lines : List (List Char)) (g : Graph) (N : Nat)
    (h : parseEdges lines = .ok (g, N)) :
    convert lines = .ok (emit (N : Int) g) ∧
    (∀ x y, (x, y) ∈ acceptedEdges lines → x ≠ y →
      (min x y, max x y, (N : Int) - 1) ∈ emit (N : Int) g) ∧
    (∀ i j w, (i, j, w) ∈ emit (N : Int) g → i ≠ j →
      (((i, j) ∈ acceptedEdges lines ∨ (j, i) ∈ acceptedEdges lines) → w = (N : Int) - 1) ∧
      (¬ ((i, j) ∈ acceptedEdges lines ∨ (j, i) ∈ acceptedEdges lines) → w = (N : Int))) ∧
    (∀ i w, (i, i, w) ∈ emit (N : Int) g → w = 0) := by
  have hk := keys_of_parseEdges lines g N h
  obtain ⟨stf, hr, hg, _, _, _, _⟩ := parseEdges_ok lines g N h
  obtain ⟨_, hkeys, hn, _⟩ := stateInv_readLoop lines stf hr
  rw [hg] at hn hkeys
  have hrange : ∀ k, k ∈ endpoints (acceptedEdges lines) → 0 ≤ k ∧ k < (N : Int) := by
    intro k hk'
    have := (hkeys k).2 hk'
    rw [hk] at this
    exact (mem_range_cast N k).1 this
  rw [emit_eq_referenceRecords g N hk]
  refine ⟨by simp [convert, h, emit_eq_referenceRecords g N hk], ?_, ?_, ?_⟩
  · intro x y hxy hne
    have hx := hrange x ((mem_endpoints _ _).2 ⟨x, y, hxy, Or.inl rfl⟩)
    have hy := hrange y ((mem_endpoints _ _).2 ⟨x, y, hxy, Or.inr rfl⟩)
    rw [mem_referenceRecords]
    have hnb : max x y ∈ neighbors g (min x y) := by
      rw [hn]
      rcases le_total x y with hle | hle
      · rw [min_eq_left hle, max_eq_right hle]; exact Or.inl hxy
      · rw [min_eq_right hle, max_eq_left hle]; exact Or.inr hxy
    refine ⟨le_min hx.1 hy.1, lt_of_le_of_lt (min_le_left _ _) hx.2, Or.inr ⟨?_, ?_, ?_⟩⟩
    · rcases lt_or_gt_of_ne hne with hlt | hgt
      · rw [min_eq_left (le_of_lt hlt), max_eq_right (le_of_lt hlt)]; exact hlt
      · rw [min_eq_right (le_of_lt hgt), max_eq_left (le_of_lt hgt)]; exact hgt
    · exact max_lt hx.2 hy.2
    · simp [hnb]
  · intro i j w hm hne
    rw [mem_referenceRecords] at hm
    obtain ⟨_, _, hm⟩ := hm
    rcases hm with ⟨hj, _⟩ | ⟨_, _, hw⟩
    · exact absurd hj.symm hne
    · constructor
      · intro he; rw [hw, if_pos ((hn i j).2 he)]
      · intro he; rw [hw, if_neg (fun hm => he ((hn i j).1 hm))]
  · intro i w hm
    rw [mem_referenceRecords] at hm
    obtain ⟨_, _, hm⟩ := hm
    rcases hm with ⟨_, hw⟩ | ⟨hlt, _, _⟩
    · exact hw
    · omega

/-! ## Reading the indices of a line -/

theorem skipSpace_spec (s : List Char) :
    ∃ ws, s = ws ++ skipSpace s ∧ ∀ c ∈ ws, isSpace c = true := by
  induction s with
  | nil => exact ⟨[], rfl, by simp⟩
  | cons c cs ih =>
    by_cases h : isSpace c = true
    · obtain ⟨ws, hws, hall⟩ := ih
      refine ⟨c :: ws, ?_, ?_⟩
      · simp only [skipSpace, h, if_true, List.cons_append]
        rw [← hws]
      · intro d hd
        rcases List.mem_cons.1 hd with hd | hd
        · rw [hd]; exact h
        · exact hall d hd
    · exact ⟨[], by simp [skipSpace, h], by simp⟩

theorem takeDigits_spec (s : List Char) :
    s = (takeDigits s).1 ++ (takeDigits s).2 ∧
    (∀ c ∈ (takeDigits s).1, isDigit c = true) ∧
    ∀ c r, (takeDigits s).2 = c :: r → isDigit c = false := by
  induction s with
  | nil => simp [takeDigits]
  | cons c cs ih =>
    by_cases h : isDigit c = true
    · obtain ⟨h1, h2, h3⟩ := ih
      simp only [takeDigits, h, if_true, List.cons_append]
      refine ⟨by rw [← h1], ?_, h3⟩
      intro d hd
      rcases List.mem_cons.1 hd with hd | hd
      · rw [hd]; exact h
      · exact h2 d hd
    · simp only [takeDigits, h]
      refine ⟨by simp, by simp, ?_⟩
      intro d r hd
      simp only [Bool.false_eq_true, if_false, List.cons.injEq] at hd
      rw [← hd.1]
      simpa using h

theorem takeSign_spec (s : List Char) :
    ∃ sg, s = sg ++ (takeSign s).2 ∧ (sg = [] ∨ sg = ['+'] ∨ sg = ['-']) := by
  cases s with
  | nil => exact ⟨[], rfl, Or.inl rfl⟩
  | cons c r =>
    by_cases hm : c = '-'
    · exact ⟨['-'], by simp [takeSign, hm], Or.inr (Or.inr rfl)⟩
    · by_cases hp : c = '+'
      · exact ⟨['+'], by simp [takeSign, hp], Or.inr (Or.inl rfl)⟩
      · exact ⟨[], by simp [takeSign, hm, hp], Or.inl rfl⟩

/-- A successful extraction has read an integer token. -/
theorem readInt_some (s rest : List Char) (v : Int) (h : readInt s = some (v, rest)) :
    BeginsWithInt s rest := by
  have key : (takeDigits (takeSign (skipSpace s)).2).1 ≠ [] ∧
      (takeDigits (takeSign (skipSpace s)).2).2 = rest := by
    unfold readInt at h
    simp only at h
    split_ifs at h with h1 h2 h3 h4
    · simp only [Option.some.injEq, Prod.mk.injEq] at h; exact ⟨h1, h.2⟩
    · simp only [Option.some.injEq, Prod.mk.injEq] at h; exact ⟨h1, h.2⟩
  obtain ⟨hds, hrest⟩ := key
  obtain ⟨ws, hws, hall⟩ := skipSpace_spec s
  obtain ⟨sg, hsg, hsign⟩ := takeSign_spec (skipSpace s)
  obtain ⟨hd1, hd2, hd3⟩ := takeDigits_spec (takeSign (skipSpace s)).2
  refine ⟨ws, sg ++ (takeDigits (takeSign (skipSpace s)).2).1, ?_, hall,
    ⟨sg, _, rfl, hsign, hds, hd2⟩, ?_⟩
  · rw [← hrest, List.append_assoc, List.append_assoc, ← hd1, ← hsg, ← hws]
  · rw [← hrest]; exact hd3

theorem parse_result_best_solutions_witness :
    resultLoop sampleReadouts = ⟨3, ["0110".toList]⟩ ∧
    ((∃ r ∈ sampleReadouts, Balanced r.t ∧ r.H = (resultLoop sampleReadouts).bestH) ∧
     (∀ r ∈ sampleReadouts, Balanced r.t → (resultLoop sampleReadouts).bestH ≤ r.H) ∧
     (∀ s, s ∈ (resultLoop sampleReadouts).solutions ↔
       ∃ r ∈ sampleReadouts, Balanced r.t ∧ r.H = (resultLoop sampleReadouts).bestH ∧
         canonical r.t = s)) :=
  ⟨by decide, parse_result_best_solutions sampleReadouts (by decide) (by decide)⟩

theorem emit_eq_referenceRecords_witness :
    emit ((2 : Nat) : Int) loopGraph = [(0, 0, 0), (0, 1, 1), (1, 1, 0)] ∧
    emit ((2 : Nat) : Int) loopGraph = referenceRecords loopGraph 2 :=
  ⟨by decide, emit_eq_referenceRecords loopGraph 2 (by decide)⟩

/-- C3 as stated fails on two self-loops: `(0, 0)` is an accepted edge, the conversion
succeeds with 2 nodes, and the record at `(min 0 0, max 0 0)` has weight 0, not 1. -/
theorem self_loop_weight_counterexample :
    ¬ (∀ g N, parseEdges isolatedLines = .ok (g, N) →
        ∀ x y, (x, y) ∈ acceptedEdges isolatedLines →
          (min x y, max x y, (N : Int) - 1) ∈ emit (N : Int) g) := by
  intro h
  have h0 := h [(0, [0]), (1, [1])] 2 (by decide) 0 0 (by decide)
  revert h0
  decide

theorem convert_edge_weights_witness :
    parseEdges loopLines = .ok (loopGraph, 2) ∧
    convert loopLines = .ok [(0, 0, 0), (0, 1, 1), (1, 1, 0)] ∧
    (min 0 1, max 0 1, ((2 : Nat) : Int) - 1) ∈ emit ((2 : Nat) : Int) loopGraph :=
  ⟨by decide, by decide,
    (convert_edge_weights loopLines loopGraph 2 (by decide)).2.1 0 1 (by decide) (by decide)⟩

theorem adjacency_of_accepted_lines_witness :
    parseEdges loopLines = .ok (loopGraph, 2) ∧
    ((1 : Int) ∈ neighbors loopGraph 0 ↔
      ((0, 1) ∈ acceptedEdges loopLines ∨ (1, 0) ∈ acceptedEdges loopLines)) ∧
    ((1 : Int) ∈ neighbors loopGraph 0 ↔ (0 : Int) ∈ neighbors loopGraph 1) :=
  ⟨by decide, (adjacency_of_accepted_lines loopLines loopGraph 2 (by decide)).1 0 1,
    (adjacency_of_accepted_lines loopLines loopGraph 2 (by decide)).2.1 0 1⟩

theorem convert_record_count_witness :
    convert loopLines = .ok (emit ((2 : Nat) : Int) loopGraph) ∧
    (emit ((2 : Nat) : Int) loopGraph).length = 2 * (2 + 1) / 2 :=
  convert_record_count loopLines loopGraph 2 (by decide)

theorem sorted_eq_range (l : List Int) (N : Nat) (hs : l.Pairwise (· < ·))
    (hm : ∀ k : Int, k ∈ l ↔ 0 ≤ k ∧ k < N) :
    l = (List.range N).map (fun i : Nat => (i : Int)) := by
  have hs2 : ((List.range N).map (fun i : Nat => (i : Int))).Pairwise (· < ·) :=
    List.Pairwise.map _ (fun a b hab => by exact_mod_cast hab) (List.pairwise_lt_range N)
  apply List.eq_of_perm_of_sorted _ hs hs2
  rw [List.perm_ext_iff_of_nodup hs.nodup hs2.nodup]
  intro k
  rw [hm k, mem_range_cast]

/-- The keys of `edges` after the line loop, when the nodes of the input are `0..N-1`. -/
theorem keys_of_nodes_range (lines : List (List Char)) (st : EdgeState) (N : Nat)
    (hr : readLoop ⟨[], []⟩ 1 lines = .ok st)
    (hn : ∀ k : Int, k ∈ nodesOf lines ↔ 0 ≤ k ∧ k < N) :
    keys st.edges = (List.range N).map (fun i : Nat => (i : Int)) ∧ st.edges.length = N := by
  obtain ⟨hs, hkeys, _, _⟩ := stateInv_readLoop lines st hr
  have hk : keys st.edges = (List.range N).map (fun i : Nat => (i : Int)) :=
    sorted_eq_range _ N hs (fun k => by rw [hkeys k, ← nodesOf_def]; exact hn k)
  refine ⟨hk, ?_⟩
  have := congrArg List.length hk
  simpa [keys] using this

theorem checkLoop_of_range (g : Graph)
    (hk : keys g = (List.range g.length).map (fun i : Nat => (i : Int))) :
    checkLoop (-1) g = .ok () := by
  apply checkLoop_of_keys
  rw [hk]
  apply List.map_congr_left
  intro a _
  omega

theorem readLoop_all_ignored (lines : List (List Char)) (st : EdgeState) (k : Nat)
    (h : ∀ l ∈ lines, ignored l = true) : readLoop st k lines = .ok st := by
  induction lines generalizing k with
  | nil => rfl
  | cons l ls ih =>
    simp only [readLoop, processLine_ignored st k l (h l (by simp))]
    exact ih (k + 1) (fun l' hl' => h l' (by simp [hl']))

/-- C11: when every line is ignored the conversion throws the EmptyGraphError; when all
lines are accepted or ignored and the node set is exactly `0, ..., N - 1` with `N` odd, it
throws `Number of nodes must be even`, the OddNodeCountError; in both cases the run ends
with the throw and writes no coefficient record. -/
theorem empty_and_odd_rejected :
    (∀ lines : List (List Char), (∀ l ∈ lines, ignored l = true) →
      parseEdges lines = .error .noEdges ∧ convert lines = .error .noEdges ∧
      QxtError.noEdges.kind = ErrorKind.EmptyGraphError ∧
      ∀ out, convert lines ≠ .ok out) ∧
    (∀ (lines : List (List Char)) (st : EdgeState) (N : Nat),
      readLoop ⟨[], []⟩ 1 lines = .ok st →
      (∀ k : Int, k ∈ nodesOf lines ↔ 0 ≤ k ∧ k < N) → N % 2 = 1 →
      parseEdges lines = .error .oddNodes ∧ convert lines = .error .oddNodes ∧
      QxtError.oddNodes.kind = ErrorKind.OddNodeCountError ∧
      (∀ av1, QxtError.oddNodes.message av1 = "Number of nodes must be even") ∧
      ∀ out, convert lines ≠ .ok out) := by
  constructor
  · intro lines h
    have hr := readLoop_all_ignored lines ⟨[], []⟩ 1 h
    have hp : parseEdges lines = .error .noEdges := by
      simp [parseEdges, hr, checkLoop]
    have hc : convert lines = .error .noEdges := by simp [convert, hp]
    refine ⟨hp, hc, rfl, ?_⟩
    intro out ho
    rw [hc] at ho
    cases ho
  · intro lines st N hr hn hodd
    obtain ⟨hk, hlen⟩ := keys_of_nodes_range lines st N hr hn
    have hchk : checkLoop (-1) st.edges = .ok () := by
      apply checkLoop_of_range
      rw [hlen]
      exact hk
    have h0 : ¬ st.edges.length = 0 := by omega
    have h2 : ¬ st.edges.length % 2 = 0 := by omega
    have hp : parseEdges lines = .error .oddNodes := by
      simp [parseEdges, hr, hchk, h0, h2]
    have hc : convert lines = .error .oddNodes := by simp [convert, hp]
    refine ⟨hp, hc, rfl, fun _ => rfl, ?_⟩
    intro out ho
    rw [hc] at ho
    cases ho

/-! ## Unbalanced records -/

theorem not_balanced_of_odd (t : List Char) (h : t.length % 2 = 1) : ¬ Balanced t := by
  intro hb
  unfold Balanced at hb
  rw [canonical_length] at hb
  omega

/-- C12: a record whose canonical string does not have exactly half of its positions
equal to `0`, in particular every record with a bit string of odd length, leaves `bestH`
and the solution set as they were, whatever its energy. -/
theorem unbalanced_record_ignored :
    (∀ (st : ResultState) (r : Readout),
      2 * (canonical r.t).count '0' ≠ (canonical r.t).length → resultStep st r = st) ∧
    (∀ (st : ResultState) (r : Readout), r.t.length % 2 = 1 → resultStep st r = st) := by
  constructor
  · intro st r h
    exact resultStep_of_not_balanced st r h
  · intro st r h
    exact resultStep_of_not_balanced st r (not_balanced_of_odd r.t h)

/-! ## parse_result: the read loop and the returned status -/

theorem readInt_length (s rest : List Char) (v : Int) (h : readInt s = some (v, rest)) :
    rest.length < s.length := by
  obtain ⟨ws, tok, hs, _, ⟨sg, ds, htok, _, hne, _⟩, _⟩ := readInt_some s rest v h
  have hd : 0 < ds.length := List.length_pos.2 hne
  rw [hs, htok]
  simp only [List.length_append]
  omega

theorem takeWord_spec (s : List Char) :
    s = (takeWord s).1 ++ (takeWord s).2 := by
  induction s with
  | nil => rfl
  | cons c cs ih =>
    by_cases h : isSpace c = true
    · simp [takeWord, h]
    · simp only [takeWord, h, Bool.false_eq_true, if_false, List.cons_append]
      rw [← ih]

theorem readString_some (s t rest : List Char) (h : readString s = some (t, rest)) :
    t ≠ [] ∧ rest.length < s.length := by
  unfold readString at h
  simp only at h
  split_ifs at h with h1
  simp only [Option.some.injEq] at h
  have ht : (takeWord (skipSpace s)).1 = t := congrArg Prod.fst h
  have hr : (takeWord (skipSpace s)).2 = rest := congrArg Prod.snd h
  obtain ⟨ws, hws, _⟩ := skipSpace_spec s
  have hw := takeWord_spec (skipSpace s)
  rw [ht, hr] at hw
  rw [ht] at h1
  refine ⟨h1, ?_⟩
  have hd : 0 < t.length := List.length_pos.2 h1
  rw [hws, hw]
  simp only [List.length_append]
  omega

theorem readRecord_some (s rest : List Char) (r : Readout)
    (h : readRecord s = some (r, rest)) : r.t ≠ [] ∧ rest.length < s.length := by
  unfold readRecord at h
  cases h1 : readInt s with
  | none => rw [h1] at h; cases h
  | some p1 =>
    obtain ⟨H, r1⟩ := p1
    rw [h1] at h
    simp only at h
    cases h2 : readInt r1 with
    | none => rw [h2] at h; cases h
    | some p2 =>
      obtain ⟨N, r2⟩ := p2
      rw [h2] at h
      simp only at h
      cases h3 : readString r2 with
      | none => rw [h3] at h; cases h
      | some p3 =>
        obtain ⟨t, r3⟩ := p3
        rw [h3] at h
        simp only [Option.some.injEq, Prod.mk.injEq] at h
        obtain ⟨hr, hrest⟩ := h
        have l1 := readInt_length s r1 H h1
        have l2 := readInt_length r1 r2 N h2
        obtain ⟨ht, l3⟩ := readString_some r2 t r3 h3
        subst hr; subst hrest
        exact ⟨ht, by omega⟩

/-- The bound on the iterations of the read loop is never the reason it stops. -/
theorem readRecordsAux_fuel (n m : Nat) (s : List Char) (hn : s.length ≤ n)
    (hm : s.length ≤ m) : readRecordsAux n s = readRecordsAux m s := by
  induction n generalizing m s with
  | zero =>
    have hs : s = [] := List.length_eq_zero.1 (by omega)
    subst hs
    cases m with
    | zero => rfl
    | succ m => rfl
  | succ n ih =>
    cases m with
    | zero =>
      have hs : s = [] := List.length_eq_zero.1 (by omega)
      subst hs
      rfl
    | succ m =>
      simp only [readRecordsAux]
      cases h : readRecord s with
      | none => rfl
      | some p =>
        obtain ⟨r, rest⟩ := p
        have hl := (readRecord_some s rest r h).2
        simp only
        rw [ih m rest (by omega) (by omega)]

/-- The read loop: a record is read as long as the stream has not failed. -/
theorem readRecords_eq (input : List Char) :
    readRecords input =
      match readRecord input with
      | none => []
      | some (r, rest) => r :: readRecords rest := by
  unfold readRecords
  cases hlen : input.length with
  | zero =>
    have hs : input = [] := List.length_eq_zero.1 hlen
    subst hs
    rfl
  | succ n =>
    simp only [readRecordsAux]
    cases h : readRecord input with
    | none => rfl
    | some p =>
      obtain ⟨r, rest⟩ := p
      have hl := (readRecord_some input rest r h).2
      simp only
      rw [readRecordsAux_fuel n rest.length rest (by omega) (le_refl _)]

theorem readRecordsAux_nonempty (n : Nat) (s : List Char) :
    ∀ r ∈ readRecordsAux n s, r.t ≠ [] := by
  induction n generalizing s with
  | zero => intro r hr; cases hr
  | succ n ih =>
    intro r hr
    simp only [readRecordsAux] at hr
    cases h : readRecord s with
    | none => rw [h] at hr; cases hr
    | some p =>
      obtain ⟨r0, rest⟩ := p
      rw [h] at hr
      rcases List.mem_cons.1 hr with hr | hr
      · rw [hr]; exact (readRecord_some s rest r0 h).1
      · exact ih rest r hr

/-- Every bit string read from the stream has at least one character. -/
theorem readRecords_nonempty (input : List Char) : ∀ r ∈ readRecords input, r.t ≠ [] :=
  readRecordsAux_nonempty _ _

theorem solutions_eq_nil_iff (records : List Readout) :
    (resultLoop records).solutions = [] ↔ ∀ r ∈ records, ¬ Balanced r.t :=
  (resultInv_resultLoop records).1

/-- The status of `parse_result`, said with the records its loop reads. -/
theorem status_of_read_records (input : List Char) :
    (parse_result input = ("No solutions found\n", 4) ↔
      ∀ r ∈ readRecords input, ¬ Balanced r.t) ∧
    ((parse_result input).2 = 4 ↔ ∀ r ∈ readRecords input, ¬ Balanced r.t) ∧
    ((parse_result input).2 = 0 ↔ ∃ r ∈ readRecords input, Balanced r.t) ∧
    (readRecords input = [] → parse_result input = ("No solutions found\n", 4)) := by
  have hiff := solutions_eq_nil_iff (readRecords input)
  by_cases he : (resultLoop (readRecords input)).solutions = []
  · have hp : parse_result input = ("No solutions found\n", 4) := by
      simp [parse_result, he]
    have hno := hiff.1 he
    refine ⟨⟨fun _ => hno, fun _ => hp⟩, ⟨fun _ => hno, fun _ => by rw [hp]⟩, ?_, fun _ => hp⟩
    constructor
    · intro h; rw [hp] at h; cases h
    · rintro ⟨r, hr, hb⟩; exact absurd hb (hno r hr)
  · have hp : (parse_result input).2 = 0 := by
      simp [parse_result, he]
    have hex : ∃ r ∈ readRecords input, Balanced r.t := by
      by_contra hcon
      apply he
      apply hiff.2
      intro r hr hb
      exact hcon ⟨r, hr, hb⟩
    obtain ⟨r0, hr0, hb0⟩ := hex
    refine ⟨?_, ?_, ⟨fun _ => ⟨r0, hr0, hb0⟩, fun _ => hp⟩, ?_⟩
    · constructor
      · intro h
        rw [h] at hp
        cases hp
      · intro h; exact absurd hb0 (h r0 hr0)
    · constructor
      · intro h
        rw [hp] at h
        cases h
      · intro h; exact absurd hb0 (h r0 hr0)
    · intro h
      rw [h] at hr0
      cases hr0

/-! ## The report of a solution -/

theorem mem_groupLoop (keep : Char → Bool) (cs : List Char) (i j : Nat) :
    j ∈ groupLoop keep cs i ↔ i ≤ j ∧ ∃ c, cs[j - i]? = some c ∧ keep c = true := by
  induction cs generalizing i with
  | nil => simp [groupLoop]
  | cons c cs ih =>
    have htail : ∀ d, (i + 1 ≤ j ∧ cs[j - (i + 1)]? = some d) ↔
        (i ≤ j ∧ j ≠ i ∧ (c :: cs)[j - i]? = some d) := by
      intro d
      constructor
      · rintro ⟨h1, h2⟩
        have : j - i = (j - (i + 1)) + 1 := by omega
        refine ⟨by omega, by omega, ?_⟩
        rw [this, List.getElem?_cons_succ]
        exact h2
      · rintro ⟨h1, h2, h3⟩
        have : j - i = (j - (i + 1)) + 1 := by omega
        rw [this, List.getElem?_cons_succ] at h3
        exact ⟨by omega, h3⟩
    have hhead : ∀ d, j = i → ((c :: cs)[j - i]? = some d ↔ c = d) := by
      intro d hji
      subst hji
      simp
    unfold groupLoop
    by_cases hk : keep c = true
    · simp only [hk, if_true, List.mem_cons, ih]
      constructor
      · rintro (h | ⟨h1, d, h2, h3⟩)
        · exact ⟨by omega, c, (hhead c h).2 rfl, hk⟩
        · have := (htail d).1 ⟨h1, h2⟩
          exact ⟨this.1, d, this.2.2, h3⟩
      · rintro ⟨h1, d, h2, h3⟩
        by_cases hji : j = i
        · exact Or.inl hji
        · have := (htail d).2 ⟨h1, hji, h2⟩
          exact Or.inr ⟨this.1, d, this.2, h3⟩
    · simp only [hk, Bool.false_eq_true, if_false, ih]
      constructor
      · rintro ⟨h1, d, h2, h3⟩
        have := (htail d).1 ⟨h1, h2⟩
        exact ⟨this.1, d, this.2.2, h3⟩
      · rintro ⟨h1, d, h2, h3⟩
        by_cases hji : j = i
        · have := (hhead d hji).1 h2
          subst this
          exact absurd h3 hk
        · have := (htail d).2 ⟨h1, hji, h2⟩
          exact ⟨this.1, d, this.2, h3⟩

theorem pairwise_groupLoop (keep : Char → Bool) (cs : List Char) (i : Nat) :
    (groupLoop keep cs i).Pairwise (· < ·) := by
  induction cs generalizing i with
  | nil => simp [groupLoop]
  | cons c cs ih =>
    unfold groupLoop
    by_cases hk : keep c = true
    · simp only [hk, if_true, List.pairwise_cons]
      refine ⟨?_, ih (i + 1)⟩
      intro j hj
      have := ((mem_groupLoop keep cs (i + 1) j).1 hj).1
      omega
    · simp only [hk, Bool.false_eq_true, if_false]
      exact ih (i + 1)

theorem mem_groupA (S : List Char) (j : Nat) :
    j ∈ groupA S ↔ j < S.length ∧ S[j]? = S[0]? := by
  cases S with
  | nil => simp [groupA]
  | cons s0 rest =>
    simp only [groupA, mem_groupLoop, Nat.zero_le, true_and, Nat.sub_zero, decide_eq_true_eq,
      List.getElem?_cons_zero]
    constructor
    · rintro ⟨c, h1, h2⟩
      subst h2
      refine ⟨?_, h1⟩
      by_contra hlt
      rw [List.getElem?_eq_none (by omega)] at h1
      cases h1
    · rintro ⟨_, h⟩
      exact ⟨s0, h, rfl⟩

theorem mem_groupB (S : List Char) (j : Nat) :
    j ∈ groupB S ↔ j < S.length ∧ S[j]? ≠ S[0]? := by
  cases S with
  | nil => simp [groupB]
  | cons s0 rest =>
    simp only [groupB, mem_groupLoop, Nat.zero_le, true_and, Nat.sub_zero, decide_eq_true_eq,
      List.getElem?_cons_zero]
    constructor
    · rintro ⟨c, h1, h2⟩
      refine ⟨?_, ?_⟩
      · by_contra hlt
        rw [List.getElem?_eq_none (by omega)] at h1
        cases h1
      · rw [h1]
        intro h
        injection h with h
        exact h2 h
    · rintro ⟨hlt, h⟩
      refine ⟨(s0 :: rest)[j], List.getElem?_eq_getElem hlt, ?_⟩
      intro he
      apply h
      rw [List.getElem?_eq_getElem hlt, he]

theorem pairwise_groupA (S : List Char) : (groupA S).Pairwise (· < ·) := by
  cases S with
  | nil => simp [groupA]
  | cons s0 rest => exact pairwise_groupLoop _ _ 0

theorem pairwise_groupB (S : List Char) : (groupB S).Pairwise (· < ·) := by
  cases S with
  | nil => simp [groupB]
  | cons s0 rest => exact pairwise_groupLoop _ _ 0

theorem sorted_nat_ext (l1 l2 : List Nat) (h1 : l1.Pairwise (· < ·)) (h2 : l2.Pairwise (· < ·))
    (hm : ∀ k, k ∈ l1 ↔ k ∈ l2) : l1 = l2 := by
  apply List.eq_of_perm_of_sorted _ h1 h2
  rw [List.perm_ext_iff_of_nodup h1.nodup h2.nodup]
  exact hm

/-- The two index lists of a solution, and the groups of `0110`. -/
theorem groups_of_string :
    (∀ S : List Char,
      groupA S = (List.range S.length).filter (fun i => decide (S[i]? = S[0]?)) ∧
      groupB S = (List.range S.length).filter (fun i => decide (S[i]? ≠ S[0]?)) ∧
      (groupA S).Pairwise (· < ·) ∧ (groupB S).Pairwise (· < ·) ∧
      (∀ i, i ∈ groupA S → i ∉ groupB S) ∧
      (∀ i, i < S.length ↔ (i ∈ groupA S ∨ i ∈ groupB S))) ∧
    groupA "0110".toList = [0, 3] ∧ groupB "0110".toList = [1, 2] ∧
    reportSolution "0110".toList = "Group A: 0 3\nGroup B: 1 2\n\n" := by
  refine ⟨fun S => ⟨?_, ?_, pairwise_groupA S, pairwise_groupB S, ?_, ?_⟩,
    by decide, by decide, by decide⟩
  · apply sorted_nat_ext _ _ (pairwise_groupA S)
      (List.Pairwise.filter _ (List.pairwise_lt_range _))
    intro k
    simp [mem_groupA]
  · apply sorted_nat_ext _ _ (pairwise_groupB S)
      (List.Pairwise.filter _ (List.pairwise_lt_range _))
    intro k
    simp [mem_groupB]
  · intro i ha hb
    exact ((mem_groupB S i).1 hb).2 ((mem_groupA S i).1 ha).2
  · intro i
    rw [mem_groupA, mem_groupB]
    constructor
    · intro h
      by_cases he : S[i]? = S[0]?
      · exact Or.inl ⟨h, he⟩
      · exact Or.inr ⟨h, he⟩
    · rintro (h | h) <;> exact h.1

/-! ## Canonical strings -/

theorem swapSymbols_involutive (a b : Char) (c : Char) :
    swapSymbols a b (swapSymbols a b c) = c := by
  unfold swapSymbols
  by_cases h1 : c = a
  · by_cases h2 : b = a
    · simp [h1, h2]
    · simp [h1, h2]
  · by_cases h2 : c = b
    · simp [h1, h2]
    · simp [h1, h2]

theorem swapSymbols_injective (a b : Char) : Function.Injective (swapSymbols a b) := by
  intro x y h
  have := congrArg (swapSymbols a b) h
  rwa [swapSymbols_involutive, swapSymbols_involutive] at this

theorem canonical_map (t : List Char) (f : Char → Char) (hf : Function.Injective f) :
    canonical (t.map f) = canonical t := by
  cases t with
  | nil => rfl
  | cons t0 cs =>
    rw [List.map_cons, canonical_eq_map, canonical_eq_map, ← List.map_cons, List.map_map]
    apply List.map_congr_left
    intro c _
    simp only [Function.comp]
    by_cases h : c = t0
    · simp [h]
    · have h2 : f c ≠ f t0 := fun e => h (hf e)
      simp [h, h2]

theorem canonical_head (t : List Char) (ht : t ≠ []) : (canonical t).head? = some '0' := by
  cases t with
  | nil => exact absurd rfl ht
  | cons t0 cs => rw [canonical_eq_map]; simp

/-- C15: for every non-empty bit string `t` and every injective renaming `f` of the
characters, the canonical string of `map f t` is that of `t`; in particular a string and
its complement, the two symbols exchanged, have the same canonical string, and position 0
of the canonical string is `0`. -/
theorem canonical_independent_of_symbols (t : List Char) (f : Char → Char) (ht : t ≠ [])
    (hf : Function.Injective f) :
    canonical (t.map f) = canonical t ∧
    (∀ a b, canonical (t.map (swapSymbols a b)) = canonical t) ∧
    (canonical t).head? = some '0' ∧ (canonical (t.map f)).head? = some '0' := by
  have h1 := canonical_map t f hf
  refine ⟨h1, fun a b => canonical_map t _ (swapSymbols_injective a b), canonical_head t ht, ?_⟩
  rw [h1]
  exact canonical_head t ht

/-! ## The order of the solution set -/

theorem char_eq_of_toNat (x y : Char) (h : x.toNat = y.toNat) : x = y := by
  apply Char.ext
  apply UInt32.ext
  exact h

/-- The order `strLt` is the lexicographic order of the strings. -/
theorem strLt_iff_lex (a b : List Char) :
    strLt a b = true ↔ List.Lex (fun x y : Char => x < y) a b := by
  induction a generalizing b with
  | nil =>
    cases b with
    | nil =>
      simp only [strLt, Bool.false_eq_true, false_iff]
      intro h
      cases h
    | cons b bs => simp only [strLt, true_iff]; exact List.Lex.nil
  | cons a as ih =>
    cases b with
    | nil =>
      simp only [strLt, Bool.false_eq_true, false_iff]
      intro h
      cases h
    | cons b bs =>
      unfold strLt
      by_cases h1 : a.toNat < b.toNat
      · simp only [h1, if_true, true_iff]
        exact List.Lex.rel h1
      · by_cases h2 : b.toNat < a.toNat
        · simp only [h1, h2, if_false, if_true, Bool.false_eq_true, false_iff]
          intro h
          cases h with
          | cons _ => omega
          | rel h => exact h1 h
        · have hab : a = b := char_eq_of_toNat a b (by omega)
          subst hab
          simp only [h1, if_false, ih]
          constructor
          · intro h; exact List.Lex.cons h
          · intro h
            cases h with
            | cons h => exact h
            | rel h => exact absurd h h1

theorem strLt_trans (a b c : List Char) (h1 : strLt a b = true) (h2 : strLt b c = true) :
    strLt a c = true := by
  rw [strLt_iff_lex] at h1 h2 ⊢
  exact IsTrans.trans _ _ _ h1 h2

theorem strLt_total (a b : List Char) (h1 : strLt a b = false) (h2 : a ≠ b) :
    strLt b a = true := by
  rcases trichotomous_of (List.Lex (fun x y : Char => x < y)) a b with h | h | h
  · rw [(strLt_iff_lex a b).2 h] at h1; cases h1
  · exact absurd h h2
  · exact (strLt_iff_lex b a).2 h

/-- Insertion into a set keeps it strictly ascending. -/
theorem pairwise_setInsert {α : Type} [DecidableEq α] (lt : α → α → Bool)
    (htrans : ∀ a b c, lt a b = true → lt b c = true → lt a c = true)
    (htot : ∀ a b, lt a b = false → a ≠ b → lt b a = true) (a : α) (l : List α)
    (h : l.Pairwise (fun x y => lt x y = true)) :
    (setInsert lt a l).Pairwise (fun x y => lt x y = true) := by
  induction l with
  | nil => simp [setInsert]
  | cons b bs ih =>
    obtain ⟨hb, hbs⟩ := List.pairwise_cons.1 h
    unfold setInsert
    by_cases h1 : lt a b = true
    · simp only [h1, if_true]
      refine List.pairwise_cons.2 ⟨?_, h⟩
      intro x hx
      rcases List.mem_cons.1 hx with hx | hx
      · rw [hx]; exact h1
      · exact htrans a b x h1 (hb x hx)
    · by_cases h2 : a = b
      · subst h2
        simp only [h1, if_false, if_true]
        exact h
      · simp only [h1, h2, if_false]
        refine List.pairwise_cons.2 ⟨?_, ih hbs⟩
        intro x hx
        rcases (mem_setInsert lt a x bs).1 hx with hx | hx
        · rw [hx]; exact htot a b (by simpa using h1) h2
        · exact hb x hx

theorem solutions_sorted_step (st : ResultState) (r : Readout)
    (h : st.solutions.Pairwise (fun a b => strLt a b = true)) :
    (resultStep st r).solutions.Pairwise (fun a b => strLt a b = true) := by
  by_cases hb : Balanced r.t
  · rw [resultStep_of_balanced st r hb]
    split_ifs
    · simp
    · exact h
    · exact pairwise_setInsert strLt strLt_trans strLt_total _ _ h
    · simp
  · rw [resultStep_of_not_balanced st r hb]
    exact h

theorem solutions_sorted (records : List Readout) :
    (resultLoop records).solutions.Pairwise (fun a b => strLt a b = true) := by
  induction records using List.reverseRecOn with
  | nil => simp [resultLoop]
  | append_singleton l r ih =>
    rw [resultLoop_append]
    exact solutions_sorted_step _ r ih

/-- C16: for every sequence of input records the solutions, reported in the order of the
set, are strictly ascending in the lexicographic order of strings, so no canonical string
is reported twice. -/
theorem reported_solutions_ascending (records : List Readout) :
    (resultLoop records).solutions.Pairwise (fun a b => strLt a b = true) ∧
    (resultLoop records).solutions.Pairwise (List.Lex (fun x y : Char => x < y)) ∧
    (resultLoop records).solutions.Nodup := by
  have h := solutions_sorted records
  have h2 : (resultLoop records).solutions.Pairwise (List.Lex (fun x y : Char => x < y)) :=
    h.imp (fun hab => (strLt_iff_lex _ _).1 hab)
  refine ⟨h, h2, ?_⟩
  exact h.imp (fun hab he => by rw [he, strLt_irrefl] at hab; cases hab)

/-! ## The upper triangle -/

theorem pairwise_referenceRecords (g : Graph) (N : Nat) :
    (referenceRecords g N).Pairwise
      (fun a b : Record => a.1 < b.1 ∨ (a.1 = b.1 ∧ a.2.1 < b.2.1)) := by
  unfold referenceRecords
  rw [List.pairwise_flatten]
  constructor
  · intro l hl
    obtain ⟨idx, _, rfl⟩ := List.mem_map.1 hl
    rw [List.pairwise_cons]
    constructor
    · intro b hb
      obtain ⟨j, hj, rfl⟩ := List.mem_map.1 hb
      have := (List.Ico.mem.1 hj).1
      right
      exact ⟨rfl, by show (idx : Int) < (j : Int); omega⟩
    · rw [List.pairwise_map]
      exact (List.Ico.pairwise_lt (idx + 1) N).imp
        (fun {a b} hab => Or.inr ⟨rfl, by show (a : Int) < (b : Int); omega⟩)
  · rw [List.pairwise_map]
    refine (List.pairwise_lt_range N).imp ?_
    intro a b hab x hx y hy
    have hx1 : x.1 = (a : Int) := by
      rcases List.mem_cons.1 hx with hx | hx
      · rw [hx]
      · obtain ⟨j, _, rfl⟩ := List.mem_map.1 hx; rfl
    have hy1 : y.1 = (b : Int) := by
      rcases List.mem_cons.1 hy with hy | hy
      · rw [hy]
      · obtain ⟨j, _, rfl⟩ := List.mem_map.1 hy; rfl
    left
    rw [hx1, hy1]
    omega

/-- C17: after a successful conversion with node count `N` every record `(i, j, w)` has
`0 <= i <= j < N`, the pairs `(i, j)` of the records are strictly increasing in
lexicographic order, so none is written twice, and every pair `(i, j)` with
`0 <= i <= j < N` is written. -/
theorem convert_upper_triangle_once (lines : List (List Char)) (g : Graph) (N : Nat)
    (h : parseEdges lines = .ok (g, N)) :
    convert lines = .ok (emit (N : Int) g) ∧
    (∀ i j w, (i, j, w) ∈ emit (N : Int) g → 0 ≤ i ∧ i ≤ j ∧ j < (N : Int)) ∧
    ((emit (N : Int) g).map (fun r => (r.1, r.2.1))).Pairwise
      (fun a b : Int × Int => a.1 < b.1 ∨ (a.1 = b.1 ∧ a.2 < b.2)) ∧
    ((emit (N : Int) g).map (fun r => (r.1, r.2.1))).Pairwise
      (fun a b : Int × Int => pairLt a b = true) ∧
    ((emit (N : Int) g).map (fun r => (r.1, r.2.1))).Nodup ∧
    (∀ i j : Int, 0 ≤ i → i ≤ j → j < (N : Int) → ∃ w, (i, j, w) ∈ emit (N : Int) g) := by
  have hk := keys_of_parseEdges lines g N h
  have he := emit_eq_referenceRecords g N hk
  have hp : ((emit (N : Int) g).map (fun r => (r.1, r.2.1))).Pairwise
      (fun a b : Int × Int => a.1 < b.1 ∨ (a.1 = b.1 ∧ a.2 < b.2)) := by
    rw [he, List.pairwise_map]
    exact pairwise_referenceRecords g N
  refine ⟨by simp [convert, h], ?_, hp, ?_, ?_, ?_⟩
  · intro i j w hm
    rw [he, mem_referenceRecords] at hm
    obtain ⟨h0, h1, hm⟩ := hm
    rcases hm with ⟨hj, _⟩ | ⟨hj1, hj2, _⟩
    · exact ⟨h0, by omega, by omega⟩
    · exact ⟨h0, by omega, hj2⟩
  · refine hp.imp ?_
    intro a b hab
    simp only [pairLt, Bool.or_eq_true, Bool.and_eq_true, decide_eq_true_eq]
    exact hab
  · refine hp.imp ?_
    intro a b hab heq
    rw [heq] at hab
    omega
  · intro i j h0 hij hj
    rw [he]
    by_cases hd : j = i
    · exact ⟨0, (mem_referenceRecords g N i j 0).2 ⟨h0, by omega, Or.inl ⟨hd, rfl⟩⟩⟩
    · exact ⟨_, (mem_referenceRecords g N i j _).2
        ⟨h0, by omega, Or.inr ⟨by omega, hj, rfl⟩⟩⟩

/-! ## Indices of the accepted lines -/

/-- C18: after a successful conversion with node count `N` every index written on an
accepted line lies in `[0, N)`, so an input that mentions a negative index, or an index
that is not below the number of its nodes, is never converted; and every neighbor stored in
the graph is itself a key, inside the range scanned by the coefficient loop. -/
theorem accepted_indices_in_range (lines : List (List Char)) (g : Graph) (N : Nat)
    (h : parseEdges lines = .ok (g, N)) :
    (∀ k ∈ nodesOf lines, 0 ≤ k ∧ k < (N : Int)) ∧
    (∀ x y, (x, y) ∈ acceptedEdges lines →
      (0 ≤ x ∧ x < (N : Int)) ∧ (0 ≤ y ∧ y < (N : Int))) ∧
    (¬ ∃ k ∈ nodesOf lines, k < 0 ∨ (N : Int) ≤ k) ∧
    (∀ x y, y ∈ neighbors g x → y ∈ keys g ∧ x ∈ keys g ∧ 0 ≤ y ∧ y < (N : Int)) := by
  have hk := keys_of_parseEdges lines g N h
  obtain ⟨stf, hr, hg, _, _, _, _⟩ := parseEdges_ok lines g N h
  obtain ⟨_, hkeys, hn, _⟩ := stateInv_readLoop lines stf hr
  rw [hg] at hn hkeys
  have hrange : ∀ k ∈ nodesOf lines, 0 ≤ k ∧ k < (N : Int) := by
    intro k hk'
    have := (hkeys k).2 hk'
    rw [hk] at this
    exact (mem_range_cast N k).1 this
  have hedge : ∀ x y, (x, y) ∈ acceptedEdges lines →
      x ∈ nodesOf lines ∧ y ∈ nodesOf lines := by
    intro x y hxy
    exact ⟨(mem_endpoints _ _).2 ⟨x, y, hxy, Or.inl rfl⟩,
      (mem_endpoints _ _).2 ⟨x, y, hxy, Or.inr rfl⟩⟩
  refine ⟨hrange, ?_, ?_, ?_⟩
  · intro x y hxy
    exact ⟨hrange x (hedge x y hxy).1, hrange y (hedge x y hxy).2⟩
  · rintro ⟨k, hk', hbad⟩
    have := hrange k hk'
    omega
  · intro x y hy
    have hxy : x ∈ nodesOf lines ∧ y ∈ nodesOf lines := by
      rcases (hn x y).1 hy with he | he
      · exact hedge x y he
      · exact (hedge y x he).symm
    exact ⟨(hkeys y).2 hxy.2, (hkeys x).2 hxy.1, hrange y hxy.2⟩

/-! ## Shape of the reported solutions -/

theorem length_groupLoop_eq (s0 : Char) (cs : List Char) (i : Nat) :
    (groupLoop (fun c => decide (c = s0)) cs i).length = cs.count s0 := by
  induction cs generalizing i with
  | nil => rfl
  | cons c cs ih =>
    unfold groupLoop
    by_cases h : c = s0
    · subst h; simp [ih]
    · have h2 : ¬ (c == s0) = true := by simpa using h
      simp [h, ih, List.count_cons, h2]

theorem length_groupLoop_ne (s0 : Char) (cs : List Char) (i : Nat) :
    (groupLoop (fun c => decide (c ≠ s0)) cs i).length + cs.count s0 = cs.length := by
  induction cs generalizing i with
  | nil => rfl
  | cons c cs ih =>
    have hi := ih (i + 1)
    unfold groupLoop
    by_cases h : c = s0
    · subst h
      have hk : decide (c ≠ c) = false := by simp
      rw [hk, List.count_cons_self]
      simp only [Bool.false_eq_true, if_false, List.length_cons]
      omega
    · have hk : decide (c ≠ s0) = true := by simpa using h
      rw [hk, List.count_cons_of_ne (fun e => h e.symm)]
      simp only [if_true, List.length_cons]
      omega

theorem mem_solutions (records : List Readout) (S : List Char)
    (h : S ∈ (resultLoop records).solutions) :
    ∃ r ∈ records, Balanced r.t ∧ canonical r.t = S := by
  obtain ⟨_, h2⟩ := resultInv_resultLoop records
  have hne : (resultLoop records).solutions ≠ [] := by
    intro he
    rw [he] at h
    cases h
  obtain ⟨r, hr, hb, _, hc⟩ := ((h2 hne).2.2 S).1 h
  exact ⟨r, hr, hb, hc⟩

/-- C19: after any sequence of records with non-empty bit strings, every string of the
solution set consists of `0` and `1` only, starts with `0` and has exactly half of its
positions equal to `0`; so for every reported solution Group A and Group B both have
`len / 2` members and index 0 is in Group A. -/
theorem solutions_balanced_canonical (records : List Readout)
    (hne : ∀ r ∈ records, r.t ≠ []) :
    ∀ S ∈ (resultLoop records).solutions,
      (∀ c ∈ S, c = '0' ∨ c = '1') ∧ S.head? = some '0' ∧
      2 * S.count '0' = S.length ∧
      (groupA S).length = S.length / 2 ∧ (groupB S).length = S.length / 2 ∧
      0 ∈ groupA S := by
  intro S hS
  obtain ⟨r, hr, hb, hc⟩ := mem_solutions records S hS
  have hnonempty := hne r hr
  have hhead : S.head? = some '0' := by rw [← hc]; exact canonical_head r.t hnonempty
  have hbal : 2 * S.count '0' = S.length := by rw [← hc]; exact hb
  have hchars : ∀ c ∈ S, c = '0' ∨ c = '1' := by
    intro c hcS
    rw [← hc] at hcS
    cases ht : r.t with
    | nil => exact absurd ht hnonempty
    | cons t0 cs =>
      rw [ht, canonical_eq_map] at hcS
      obtain ⟨d, _, hd⟩ := List.mem_map.1 hcS
      by_cases hdt : d = t0
      · left; rw [← hd]; simp [hdt]
      · right; rw [← hd]; simp [hdt]
  cases hS' : S with
  | nil => rw [hS'] at hhead; cases hhead
  | cons s0 rest =>
    rw [hS'] at hhead hbal
    have hs0 : s0 = '0' := by simpa using hhead
    subst hs0
    have hA : (groupA ('0' :: rest)).length = ('0' :: rest).count '0' :=
      length_groupLoop_eq '0' _ 0
    have hB : (groupB ('0' :: rest)).length + ('0' :: rest).count '0' =
        ('0' :: rest).length := length_groupLoop_ne '0' _ 0
    refine ⟨by rw [← hS']; exact hchars, rfl, hbal, by omega, by omega, ?_⟩
    rw [mem_groupA]
    simp

/-! ## Integer tokens and the extraction -/

theorem digit_not_space (c : Char) (h : isDigit c = true) :
    isSpace c = false ∧ c ≠ '+' ∧ c ≠ '-' := by
  have h48 : 48 ≤ c.toNat := by
    simp only [isDigit, Bool.and_eq_true, decide_eq_true_eq] at h
    exact h.1
  refine ⟨?_, ?_, ?_⟩
  · cases hs : isSpace c with
    | false => rfl
    | true =>
      exfalso
      simp only [isSpace, Bool.or_eq_true, decide_eq_true_eq] at hs
      rcases hs with ((((hs | hs) | hs) | hs) | hs) | hs <;>
        (rw [hs] at h48; revert h48; decide)
  · intro hc; rw [hc] at h48; revert h48; decide
  · intro hc; rw [hc] at h48; revert h48; decide

theorem skipSpace_append (ws x : List Char) (hws : ∀ c ∈ ws, isSpace c = true) :
    skipSpace (ws ++ x) = skipSpace x := by
  induction ws with
  | nil => rfl
  | cons w ws ih =>
    have hw := hws w (by simp)
    simp only [List.cons_append, skipSpace, hw, if_true]
    exact ih (fun c hc => hws c (by simp [hc]))

theorem skipSpace_of_head (c : Char) (x : List Char) (h : isSpace c = false) :
    skipSpace (c :: x) = c :: x := by
  simp [skipSpace, h]

theorem takeDigits_append (ds rest : List Char) (hds : ∀ c ∈ ds, isDigit c = true)
    (hrest : ∀ c r, rest = c :: r → isDigit c = false) :
    takeDigits (ds ++ rest) = (ds, rest) := by
  induction ds with
  | nil =>
    cases rest with
    | nil => rfl
    | cons c r => simp [takeDigits, hrest c r rfl]
  | cons d ds ih =>
    have hd := hds d (by simp)
    have := ih (fun c hc => hds c (by simp [hc]))
    show takeDigits (d :: (ds ++ rest)) = (d :: ds, rest)
    simp only [takeDigits, hd, if_true, this]

/-- An integer token in `int` range is what the extraction reads. -/
theorem readInt_of_begins (s rest : List Char) (v : Int)
    (h : BeginsWithIntValue s v rest) (hr : InIntRange v) : readInt s = some (v, rest) := by
  obtain ⟨ws, sg, ds, hs, hws, hsg, hne, hds, hrest, hv⟩ := h
  obtain ⟨d, ds', hd⟩ : ∃ d ds', ds = d :: ds' := by
    cases ds with
    | nil => exact absurd rfl hne
    | cons d ds' => exact ⟨d, ds', rfl⟩
  have hdd : isDigit d = true := hds d (by simp [hd])
  obtain ⟨hd1, hd2, hd3⟩ := digit_not_space d hdd
  have htd := takeDigits_append ds rest hds hrest
  have hrange : ¬ (v < -2147483648 ∨ 2147483647 < v) := by
    unfold InIntRange at hr
    omega
  have hskip : skipSpace s = sg ++ ds ++ rest := by
    rw [hs, List.append_assoc, List.append_assoc, skipSpace_append ws _ hws,
      ← List.append_assoc]
    rcases hsg with h | h | h
    · rw [h, hd]; exact skipSpace_of_head d _ hd1
    · rw [h]; exact skipSpace_of_head '+' _ (by decide)
    · rw [h]; exact skipSpace_of_head '-' _ (by decide)
  have hsign : takeSign (sg ++ ds ++ rest) = (decide (sg = ['-']), ds ++ rest) := by
    rcases hsg with h | h | h
    · rw [h, hd]
      simp [takeSign, hd2, hd3]
    · rw [h]; simp [takeSign]
    · rw [h]; simp [takeSign]
  unfold readInt
  simp only [hskip, hsign, htd, hne, if_false]
  by_cases hm : sg = ['-']
  · simp only [hm, if_true] at hv
    simp only [hm, decide_True, if_true, ← hv, hrange, if_false]
  · simp only [hm, if_false] at hv
    simp only [hm, decide_False, Bool.false_eq_true, if_false, ← hv, hrange]

theorem takeSign_value (s : List Char) :
    ∃ sg, s = sg ++ (takeSign s).2 ∧ (sg = [] ∨ sg = ['+'] ∨ sg = ['-']) ∧
      ((takeSign s).1 = true ↔ sg = ['-']) := by
  cases s with
  | nil => exact ⟨[], rfl, Or.inl rfl, by simp [takeSign]⟩
  | cons c r =>
    by_cases hm : c = '-'
    · exact ⟨['-'], by simp [takeSign, hm], Or.inr (Or.inr rfl), by simp [takeSign, hm]⟩
    · by_cases hp : c = '+'
      · exact ⟨['+'], by simp [takeSign, hp], Or.inr (Or.inl rfl), by simp [takeSign, hp]⟩
      · exact ⟨[], by simp [takeSign, hm, hp], Or.inl rfl, by simp [takeSign, hm, hp]⟩

/-- What the extraction reads is an integer token in `int` range, with its value. -/
theorem readInt_some_value (s rest : List Char) (v : Int) (h : readInt s = some (v, rest)) :
    BeginsWithIntValue s v rest ∧ InIntRange v := by
  obtain ⟨ws, hws, hall⟩ := skipSpace_spec s
  obtain ⟨sg, hsg, hsign, hneg⟩ := takeSign_value (skipSpace s)
  obtain ⟨hd1, hd2, hd3⟩ := takeDigits_spec (takeSign (skipSpace s)).2
  have key : (takeDigits (takeSign (skipSpace s)).2).1 ≠ [] ∧
      (takeDigits (takeSign (skipSpace s)).2).2 = rest ∧ InIntRange v ∧
      v = (if (takeSign (skipSpace s)).1 = true
        then - (digitsValue (takeDigits (takeSign (skipSpace s)).2).1 : Int)
        else (digitsValue (takeDigits (takeSign (skipSpace s)).2).1 : Int)) := by
    unfold readInt at h
    simp only at h
    split_ifs at h with h1 h2 h3 h4
    · simp only [Option.some.injEq, Prod.mk.injEq] at h
      refine ⟨h1, h.2, ?_, by rw [if_pos h2]; exact h.1.symm⟩
      unfold InIntRange
      omega
    · simp only [Option.some.injEq, Prod.mk.injEq] at h
      refine ⟨h1, h.2, ?_, by rw [if_neg h2]; exact h.1.symm⟩
      unfold InIntRange
      omega
  obtain ⟨hds, hrest, hrange, hv⟩ := key
  refine ⟨⟨ws, sg, (takeDigits (takeSign (skipSpace s)).2).1, ?_, hall, hsign, hds, hd2, ?_, ?_⟩,
    hrange⟩
  · rw [← hrest, List.append_assoc, List.append_assoc, ← hd1, ← hsg, ← hws]
  · rw [← hrest]; exact hd3
  · rw [hv]
    by_cases hb : (takeSign (skipSpace s)).1 = true
    · rw [if_pos hb, if_pos (hneg.1 hb)]
    · rw [if_neg hb, if_neg (fun e => hb (hneg.2 e))]

/-- A line gives the pair `(x, y)` exactly when the two extractions read `x` and `y`. -/
theorem lineGives_iff (line : List Char) (x y : Int) :
    LineGives line x y ↔ parseTwo line = some (x, y) := by
  constructor
  · rintro ⟨r1, r2, h1, h2, hx, hy⟩
    simp [parseTwo, readInt_of_begins line r1 x h1 hx, readInt_of_begins r1 r2 y h2 hy]
  · intro h
    unfold parseTwo at h
    cases h1 : readInt line with
    | none => rw [h1] at h; cases h
    | some p1 =>
      obtain ⟨x1, r1⟩ := p1
      rw [h1] at h
      simp only at h
      cases h2 : readInt r1 with
      | none => rw [h2] at h; cases h
      | some p2 =>
        obtain ⟨y1, r2⟩ := p2
        rw [h2] at h
        simp only [Option.some.injEq, Prod.mk.injEq] at h
        obtain ⟨hx, hy⟩ := h
        subst hx; subst hy
        obtain ⟨b1, g1⟩ := readInt_some_value _ _ _ h1
        obtain ⟨b2, g2⟩ := readInt_some_value _ _ _ h2
        exact ⟨r1, r2, b1, b2, g1, g2⟩

/-! ## Completeness of the validation -/

/-- The line loop ends without a throw when every line that is not ignored is read and no
later line repeats the pair of an earlier one, in either direction. -/
theorem readLoop_succeeds (lines : List (List Char))
    (hparse : ∀ l ∈ lines, ignored l = false → ∃ x y, parseTwo l = some (x, y))
    (hnodup : lines.Pairwise (fun l1 l2 => ∀ x y u v, ignored l1 = false →
      ignored l2 = false → parseTwo l1 = some (x, y) → parseTwo l2 = some (u, v) →
      ¬ ((u = x ∧ v = y) ∨ (u = y ∧ v = x)))) :
    ∃ st, readLoop ⟨[], []⟩ 1 lines = .ok st := by
  induction lines using List.reverseRecOn with
  | nil => exact ⟨_, rfl⟩
  | append_singleton pre line ih =>
    obtain ⟨hp1, _, hp3⟩ := List.pairwise_append.1 hnodup
    obtain ⟨st, hst⟩ := ih (fun l hl => hparse l (by simp [hl])) hp1
    rw [readLoop_append, hst]
    simp only [readLoop]
    by_cases hi : ignored line = true
    · rw [processLine_ignored _ _ _ hi]
      exact ⟨st, rfl⟩
    · have hi2 : ignored line = false := by simpa using hi
      obtain ⟨u, v, huv⟩ := hparse line (by simp) hi2
      have hc : (u, v) ∉ st.check := by
        intro hmem
        have hinv := (stateInv_readLoop pre st hst).2.2.2 u v
        rcases hinv.1 hmem with he | he
        · obtain ⟨l, hl, hil, hpl⟩ := (mem_acceptedEdges pre u v).1 he
          exact hp3 l hl line (by simp) u v u v hil hi2 hpl huv (Or.inl ⟨rfl, rfl⟩)
        · obtain ⟨l, hl, hil, hpl⟩ := (mem_acceptedEdges pre v u).1 he
          exact hp3 l hl line (by simp) v u u v hil hi2 hpl huv (Or.inr ⟨rfl, rfl⟩)
      rw [processLine_recorded _ _ _ u v hi2 huv hc]
      exact ⟨_, rfl⟩

/-- The nodes of an input, said with the tokens of its lines. -/
theorem mem_nodesOf_iff (lines : List (List Char)) (k : Int) :
    k ∈ nodesOf lines ↔
      ∃ l ∈ lines, ignored l = false ∧ ∃ x y, LineGives l x y ∧ (k = x ∨ k = y) := by
  rw [nodesOf_def, mem_endpoints]
  constructor
  · rintro ⟨a, b, hab, hk⟩
    obtain ⟨l, hl, hi, hp⟩ := (mem_acceptedEdges lines a b).1 hab
    exact ⟨l, hl, hi, a, b, (lineGives_iff l a b).2 hp, hk⟩
  · rintro ⟨l, hl, hi, a, b, hg, hk⟩
    exact ⟨a, b, (mem_acceptedEdges lines a b).2 ⟨l, hl, hi, (lineGives_iff l a b).1 hg⟩, hk⟩

/-- C20: when every line that is not ignored begins with two integer tokens in `int`
range, no unordered pair is given by two different lines, and the indices mentioned are
exactly `0, ..., N - 1` for an even `N > 0`, the conversion succeeds with node count `N`
and throws nothing. -/
theorem valid_input_converts (lines : List (List Char)) (N : Nat)
    (htok : ∀ l ∈ lines, ignored l = false → ∃ x y, LineGives l x y)
    (hnodup : lines.Pairwise (fun l1 l2 => ∀ x y u v, ignored l1 = false →
      ignored l2 = false → LineGives l1 x y → LineGives l2 u v →
      ¬ ((u = x ∧ v = y) ∨ (u = y ∧ v = x))))
    (hnodes : ∀ k : Int,
      (∃ l ∈ lines, ignored l = false ∧ ∃ x y, LineGives l x y ∧ (k = x ∨ k = y)) ↔
        0 ≤ k ∧ k < (N : Int))
    (hpos : 0 < N) (heven : N % 2 = 0) :
    ∃ g, parseEdges lines = .ok (g, N) ∧ convert lines = .ok (emit (N : Int) g) ∧
      keys g = (List.range N).map (fun i : Nat => (i : Int)) := by
  have hparse : ∀ l ∈ lines, ignored l = false → ∃ x y, parseTwo l = some (x, y) := by
    intro l hl hi
    obtain ⟨x, y, hg⟩ := htok l hl hi
    exact ⟨x, y, (lineGives_iff l x y).1 hg⟩
  have hnodup2 : lines.Pairwise (fun l1 l2 => ∀ x y u v, ignored l1 = false →
      ignored l2 = false → parseTwo l1 = some (x, y) → parseTwo l2 = some (u, v) →
      ¬ ((u = x ∧ v = y) ∨ (u = y ∧ v = x))) :=
    hnodup.imp (fun {l1 l2} h x y u v h1 h2 p1 p2 =>
      h x y u v h1 h2 ((lineGives_iff l1 x y).2 p1) ((lineGives_iff l2 u v).2 p2))
  obtain ⟨st, hst⟩ := readLoop_succeeds lines hparse hnodup2
  obtain ⟨hk, hlen⟩ := keys_of_nodes_range lines st N hst
    (fun k => by rw [mem_nodesOf_iff]; exact hnodes k)
  have hchk : checkLoop (-1) st.edges = .ok () := by
    apply checkLoop_of_range
    rw [hlen]
    exact hk
  have h0 : ¬ N = 0 := by omega
  have h2 : ¬ N % 2 = 1 := by omega
  have hp : parseEdges lines = .ok (st.edges, N) := by
    simp [parseEdges, hst, hchk, h0, h2, hlen]
  exact ⟨st.edges, hp, by simp [convert, hp], hk⟩

/-! ## The later claims at sample inputs -/

theorem empty_and_odd_rejected_witness :
    convert ignoredLines = .error .noEdges ∧
    readLoop ⟨[], []⟩ 1 oddLines = .ok oddState ∧
    convert oddLines = .error .oddNodes :=
  ⟨(empty_and_odd_rejected.1 ignoredLines (by decide)).2.1, by decide,
    (empty_and_odd_rejected.2 oddLines oddState 3 (by decide)
      (by
        intro k
        have e : nodesOf oddLines = [0, 1, 1, 2] := by decide
        rw [e]
        simp only [List.mem_cons, List.mem_singleton, List.not_mem_nil, or_false]
        omega)
      (by decide)).2.1⟩

theorem unbalanced_record_ignored_witness :
    ¬ Balanced "000".toList ∧
    resultStep ⟨5, ["0011".toList]⟩ ⟨1, 2, "000".toList⟩ = ⟨5, ["0011".toList]⟩ :=
  ⟨by decide, unbalanced_record_ignored.2 ⟨5, ["0011".toList]⟩ ⟨1, 2, "000".toList⟩
    (by decide)⟩

theorem canonical_independent_of_symbols_witness :
    "0011".toList.map (swapSymbols '0' '1') = "1100".toList ∧
    canonical "1100".toList = "0011".toList ∧
    canonical ("0011".toList.map (swapSymbols '0' '1')) = canonical "0011".toList :=
  ⟨by decide, by decide,
    (canonical_independent_of_symbols "0011".toList (swapSymbols '0' '1') (by decide)
      (swapSymbols_injective '0' '1')).1⟩

theorem convert_upper_triangle_once_witness :
    parseEdges loopLines = .ok (loopGraph, 2) ∧
    convert loopLines = .ok (emit ((2 : Nat) : Int) loopGraph) ∧
    (emit ((2 : Nat) : Int) loopGraph).map (fun r => (r.1, r.2.1)) =
      [(0, 0), (0, 1), (1, 1)] :=
  ⟨by decide, (convert_upper_triangle_once loopLines loopGraph 2 (by decide)).1, by decide⟩

theorem accepted_indices_in_range_witness :
    parseEdges loopLines = .ok (loopGraph, 2) ∧
    nodesOf loopLines = [0, 0, 0, 1] ∧
    ∀ k ∈ nodesOf loopLines, 0 ≤ k ∧ k < ((2 : Nat) : Int) :=
  ⟨by decide, by decide, (accepted_indices_in_range loopLines loopGraph 2 (by decide)).1⟩

theorem solutions_balanced_canonical_witness :
    (resultLoop sampleReadouts).solutions = ["0110".toList] ∧
    groupA "0110".toList = [0, 3] ∧ groupB "0110".toList = [1, 2] ∧
    (groupA "0110".toList).length = "0110".toList.length / 2 ∧
    (groupB "0110".toList).length = "0110".toList.length / 2 ∧
    0 ∈ groupA "0110".toList :=
  ⟨by decide, by decide, by decide,
    (solutions_balanced_canonical sampleReadouts (by decide) "0110".toList (by decide)).2.2.2⟩

theorem valid_input_converts_witness :
    parseEdges edgeLines = .ok ([(0, [1]), (1, [0])], 2) ∧
    ∃ g, parseEdges edgeLines = .ok (g, 2) ∧
      convert edgeLines = .ok (emit ((2 : Nat) : Int) g) ∧
      keys g = (List.range 2).map (fun i : Nat => (i : Int)) :=
  ⟨by decide,
    valid_input_converts edgeLines 2
      (by
        intro l hl hi
        have hp : parseTwo l ≠ none := by
          revert l
          decide
        cases h : parseTwo l with
        | none => exact absurd h hp
        | some xy => exact ⟨xy.1, xy.2, (lineGives_iff l xy.1 xy.2).2 h⟩)
      (by
        refine List.pairwise_cons.2 ⟨?_, List.pairwise_singleton _ _⟩
        intro l _ x y u v hi
        exact absurd hi (by decide))
      (by
        intro k
        rw [← mem_nodesOf_iff]
        have e : nodesOf edgeLines = [0, 1] := by decide
        rw [e]
        simp only [List.mem_cons, List.mem_singleton, List.not_mem_nil, or_false]
        omega)
      (by decide) (by decide)⟩

/-! ## The gap message -/

theorem wrapInt_of_inRange (v : Int) (h : InIntRange v) : wrapInt v = v := by
  unfold InIntRange at h
  unfold wrapInt
  omega

/-- Every index of an accepted line fits in `int`. -/
theorem nodesOf_inRange (lines : List (List Char)) (k : Int) (h : k ∈ nodesOf lines) :
    InIntRange k := by
  obtain ⟨l, _, _, x, y, ⟨_, _, _, _, hx, hy⟩, hk⟩ := (mem_nodesOf_iff lines k).1 h
  rcases hk with hk | hk
  · rw [hk]; exact hx
  · rw [hk]; exact hy

/-- C8: when all lines are accepted or ignored and the node set of the input is not a
range `0, ..., N - 1`, the conversion throws a DiscontinuityError, `Node k is defined, but
not p` with `p` the `int` value of `k - 1`; `k` is a node of the input, `k - 1` is not, and
`k` is the least node other than 0 whose predecessor is absent.  The message cites the
pair `(k, k - 1)` for every `k` but the least `int`, where `p` is the greatest `int`. -/
theorem gap_rejected (lines : List (List Char)) (st : EdgeState)
    (hall : readLoop ⟨[], []⟩ 1 lines = .ok st)
    (hgap : ¬ ∃ N : Nat, ∀ k : Int, k ∈ nodesOf lines ↔ 0 ≤ k ∧ k < N) :
    ∃ k : Int, parseEdges lines = .error (.nodeGap k) ∧
      convert lines = .error (.nodeGap k) ∧
      (QxtError.nodeGap k).kind = ErrorKind.DiscontinuityError ∧
      (∀ av1, (QxtError.nodeGap k).message av1 =
        "Node " ++ toString k ++ " is defined, but not " ++ toString (wrapInt (k - 1))) ∧
      (-2147483648 < k → ∀ av1, (QxtError.nodeGap k).message av1 =
        "Node " ++ toString k ++ " is defined, but not " ++ toString (k - 1)) ∧
      (k = -2147483648 → ∀ av1, (QxtError.nodeGap k).message av1 =
        "Node -2147483648 is defined, but not 2147483647") ∧
      InIntRange k ∧
      k ∈ nodesOf lines ∧ k - 1 ∉ nodesOf lines ∧
      ∀ j ∈ nodesOf lines, j ≠ 0 → j - 1 ∉ nodesOf lines → k ≤ j := by
  obtain ⟨hs, hkeys, _, _⟩ := stateInv_readLoop lines st hall
  cases hc : checkLoop (-1) st.edges with
  | ok u =>
    exfalso
    apply hgap
    refine ⟨st.edges.length, fun k => ?_⟩
    have hk := checkLoop_ok (-1) st.edges hc
    have hk' : keys st.edges = (List.range st.edges.length).map (fun i : Nat => (i : Int)) := by
      rw [hk]
      apply List.map_congr_left
      intro a _
      omega
    rw [nodesOf_def, ← hkeys k, hk']
    exact mem_range_cast _ k
  | error e =>
    obtain ⟨k, he, hm, hp, _, hmin⟩ :=
      checkLoop_error (-1) st.edges e hc hs (Or.inr rfl) (le_refl _)
    subst he
    have hpe := parseEdges_check_error lines st _ hall hc
    have hnode : k ∈ nodesOf lines := (hkeys k).1 hm
    have hrange := nodesOf_inRange lines k hnode
    refine ⟨k, hpe, by simp [convert, hpe], rfl, fun _ => rfl, ?_, ?_, hrange, hnode, ?_, ?_⟩
    · intro hk av1
      have hw : wrapInt (k - 1) = k - 1 := by
        apply wrapInt_of_inRange
        unfold InIntRange at hrange ⊢
        omega
      show "Node " ++ toString k ++ " is defined, but not " ++ toString (wrapInt (k - 1)) = _
      rw [hw]
    · intro hk av1
      subst hk
      show "Node " ++ toString (-2147483648 : Int) ++ " is defined, but not " ++
        toString (wrapInt (-2147483648 - 1)) = "Node -2147483648 is defined, but not 2147483647"
      decide
    · exact fun h => hp ((hkeys _).2 h)
    · intro j hj hj0 hj1
      exact hmin j ((hkeys j).2 hj) (by simpa using hj0) (fun h => hj1 ((hkeys _).1 h))

theorem gap_rejected_witness :
    parseEdges gapLines = .error (.nodeGap 3) ∧
    (QxtError.nodeGap 3).message "edges.txt" = "Node 3 is defined, but not 2" ∧
    parseEdges extremeLines = .error (.nodeGap (-2147483648)) ∧
    (QxtError.nodeGap (-2147483648)).message "edges.txt" =
      "Node -2147483648 is defined, but not 2147483647" ∧
    ∃ k : Int, parseEdges gapLines = .error (.nodeGap k) ∧
      convert gapLines = .error (.nodeGap k) ∧
      (QxtError.nodeGap k).kind = ErrorKind.DiscontinuityError ∧
      (∀ av1, (QxtError.nodeGap k).message av1 =
        "Node " ++ toString k ++ " is defined, but not " ++ toString (wrapInt (k - 1))) ∧
      (-2147483648 < k → ∀ av1, (QxtError.nodeGap k).message av1 =
        "Node " ++ toString k ++ " is defined, but not " ++ toString (k - 1)) ∧
      (k = -2147483648 → ∀ av1, (QxtError.nodeGap k).message av1 =
        "Node -2147483648 is defined, but not 2147483647") ∧
      InIntRange k ∧
      k ∈ nodesOf gapLines ∧ k - 1 ∉ nodesOf gapLines ∧
      ∀ j ∈ nodesOf gapLines, j ≠ 0 → j - 1 ∉ nodesOf gapLines → k ≤ j :=
  ⟨by decide, by decide, by decide, by decide,
    gap_rejected gapLines gapState (by decide) (by
      rintro ⟨N, h⟩
      have h3 := (h 3).1 (by decide)
      have h2 := (h 2).2 ⟨by omega, by omega⟩
      revert h2
      decide)⟩

/-! ## The well-formed prefix of the input -/

theorem takeWord_parts (s : List Char) :
    (∀ c ∈ (takeWord s).1, isSpace c = false) ∧
    ∀ c r, (takeWord s).2 = c :: r → isSpace c = true := by
  induction s with
  | nil => simp [takeWord]
  | cons c cs ih =>
    by_cases h : isSpace c = true
    · simp only [takeWord, h, if_true]
      refine ⟨by simp, ?_⟩
      intro d r hd
      simp only [List.cons.injEq] at hd
      rw [← hd.1]; exact h
    · have h2 : isSpace c = false := by simpa using h
      simp only [takeWord, h2, Bool.false_eq_true, if_false]
      refine ⟨?_, ih.2⟩
      intro d hd
      rcases List.mem_cons.1 hd with hd | hd
      · rw [hd]; exact h2
      · exact ih.1 d hd

theorem takeWord_append (t rest : List Char) (ht : ∀ c ∈ t, isSpace c = false)
    (hrest : ∀ c r, rest = c :: r → isSpace c = true) :
    takeWord (t ++ rest) = (t, rest) := by
  induction t with
  | nil =>
    cases rest with
    | nil => rfl
    | cons c r => simp [takeWord, hrest c r rfl]
  | cons d t ih =>
    have hd := ht d (by simp)
    have := ih (fun c hc => ht c (by simp [hc]))
    show takeWord (d :: (t ++ rest)) = (d :: t, rest)
    simp only [takeWord, hd, Bool.false_eq_true, if_false, this]

/-- A word at the head of the input is what the extraction of a string reads. -/
theorem readString_of_begins (s t rest : List Char) (h : BeginsWithWord s t rest) :
    readString s = some (t, rest) := by
  obtain ⟨ws, hs, hws, hne, ht, hrest⟩ := h
  obtain ⟨d, t', hd⟩ : ∃ d t', t = d :: t' := by
    cases t with
    | nil => exact absurd rfl hne
    | cons d t' => exact ⟨d, t', rfl⟩
  have hskip : skipSpace s = t ++ rest := by
    rw [hs, List.append_assoc, skipSpace_append ws _ hws, hd]
    exact skipSpace_of_head d _ (ht d (by simp [hd]))
  unfold readString
  simp only [hskip, takeWord_append t rest ht hrest, hne, if_false]

/-- What the extraction of a string reads is a word at the head of the input. -/
theorem readString_some_word (s t rest : List Char) (h : readString s = some (t, rest)) :
    BeginsWithWord s t rest := by
  have hne := (readString_some s t rest h).1
  unfold readString at h
  simp only at h
  split_ifs at h with h1
  simp only [Option.some.injEq] at h
  have ht : (takeWord (skipSpace s)).1 = t := congrArg Prod.fst h
  have hr : (takeWord (skipSpace s)).2 = rest := congrArg Prod.snd h
  obtain ⟨ws, hws, hall⟩ := skipSpace_spec s
  have hw := takeWord_spec (skipSpace s)
  obtain ⟨hp1, hp2⟩ := takeWord_parts (skipSpace s)
  rw [ht, hr] at hw
  rw [ht] at hp1
  rw [hr] at hp2
  exact ⟨ws, by rw [List.append_assoc, ← hw, ← hws], hall, hne, hp1, hp2⟩

/-- A record is read exactly when the input begins with a well-formed triple. -/
theorem readRecord_iff (s rest : List Char) (r : Readout) :
    readRecord s = some (r, rest) ↔ BeginsWithRecord s r rest := by
  constructor
  · intro h
    unfold readRecord at h
    cases h1 : readInt s with
    | none => rw [h1] at h; cases h
    | some p1 =>
      obtain ⟨H, r1⟩ := p1
      rw [h1] at h
      simp only at h
      cases h2 : readInt r1 with
      | none => rw [h2] at h; cases h
      | some p2 =>
        obtain ⟨N, r2⟩ := p2
        rw [h2] at h
        simp only at h
        cases h3 : readString r2 with
        | none => rw [h3] at h; cases h
        | some p3 =>
          obtain ⟨t, r3⟩ := p3
          rw [h3] at h
          simp only [Option.some.injEq, Prod.mk.injEq] at h
          obtain ⟨hr, hrest⟩ := h
          subst hr; subst hrest
          obtain ⟨b1, g1⟩ := readInt_some_value _ _ _ h1
          obtain ⟨b2, g2⟩ := readInt_some_value _ _ _ h2
          exact ⟨r1, r2, b1, g1, b2, g2, readString_some_word _ _ _ h3⟩
  · rintro ⟨r1, r2, b1, g1, b2, g2, hw⟩
    obtain ⟨H, N, t⟩ := r
    simp [readRecord, readInt_of_begins s r1 H b1 g1, readInt_of_begins r1 r2 N b2 g2,
      readString_of_begins r2 t rest hw]

/-- The well-formed prefix of an input is the list of records the read loop reads. -/
theorem wellFormedPrefix_unique (s : List Char) (rs : List Readout)
    (h : WellFormedPrefix s rs) : rs = readRecords s := by
  induction h with
  | stop s hno =>
    rw [readRecords_eq]
    cases hr : readRecord s with
    | none => rfl
    | some p => exact absurd ((readRecord_iff s p.2 p.1).1 hr) (hno p.1 p.2)
  | step s r rest rs hb _ ih =>
    rw [readRecords_eq, (readRecord_iff s rest r).2 hb, ih]

theorem wellFormedPrefix_aux (n : Nat) :
    ∀ s : List Char, s.length ≤ n → WellFormedPrefix s (readRecords s) := by
  induction n with
  | zero =>
    intro s hs
    have he : s = [] := List.length_eq_zero.1 (by omega)
    subst he
    apply WellFormedPrefix.stop
    intro r rest hb
    have := (readRecord_iff [] rest r).2 hb
    cases this
  | succ n ih =>
    intro s hs
    rw [readRecords_eq]
    cases hr : readRecord s with
    | none =>
      apply WellFormedPrefix.stop
      intro r rest hb
      rw [(readRecord_iff s rest r).2 hb] at hr
      cases hr
    | some p =>
      obtain ⟨r, rest⟩ := p
      have hl := (readRecord_some s rest r hr).2
      exact WellFormedPrefix.step s r rest _ ((readRecord_iff s rest r).1 hr)
        (ih rest (by omega))

/-- Every input has a well-formed prefix: the records the read loop reads. -/
theorem wellFormedPrefix_readRecords (s : List Char) : WellFormedPrefix s (readRecords s) :=
  wellFormedPrefix_aux s.length s (le_refl _)

/-- C13: every input has exactly one well-formed prefix of records; `parse_result` writes
`No solutions found` and returns 4 exactly when no record of that prefix is balanced, in
particular when the prefix has no record at all, and returns 0 otherwise.  The three
records of the scenario give status 0, the empty input and the record `1 2 000` give 4. -/
theorem parse_result_status :
    (∀ input : List Char, ∃ records : List Readout,
      WellFormedPrefix input records ∧
      (∀ rs, WellFormedPrefix input rs → rs = records) ∧
      (parse_result input = ("No solutions found\n", 4) ↔
        ∀ r ∈ records, ¬ Balanced r.t) ∧
      ((parse_result input).2 = 4 ↔ ∀ r ∈ records, ¬ Balanced r.t) ∧
      ((parse_result input).2 = 0 ↔ ∃ r ∈ records, Balanced r.t) ∧
      (records = [] → parse_result input = ("No solutions found\n", 4))) ∧
    parse_result "5 2 0011\n5 2 0101\n3 2 0110\n".toList =
      ("Group A: 0 3\nGroup B: 1 2\n\n", 0) ∧
    parse_result "".toList = ("No solutions found\n", 4) ∧
    parse_result "1 2 000\n".toList = ("No solutions found\n", 4) ∧
    parse_result "7 2 01 oops 3 2 10".toList = ("Group A: 0\nGroup B: 1\n\n", 0) := by
  refine ⟨?_, by decide, by decide, by decide, by decide⟩
  intro input
  obtain ⟨h1, h2, h3, h4⟩ := status_of_read_records input
  refine ⟨readRecords input, wellFormedPrefix_readRecords input, ?_, h1, h2, h3, h4⟩
  intro rs hrs
  exact wellFormedPrefix_unique input rs hrs

/-! ## The text of the report -/

theorem foldl_append_eq_join {α : Type} (f : α → String) (l : List α) (acc : String) :
    l.foldl (fun out a => out ++ f a) acc = (l.map f).foldl (fun r s => r ++ s) acc := by
  induction l generalizing acc with
  | nil => rfl
  | cons a l ih => simp only [List.foldl_cons, List.map_cons, ih]

theorem printIndices_eq (l : List Nat) :
    printIndices l = String.join (l.map (fun i => " " ++ toString i)) := by
  unfold printIndices String.join
  rw [← foldl_append_eq_join]
  congr 1
  funext out i
  rw [String.append_assoc]

theorem reportSolution_eq (S : List Char) : reportSolution S = referenceReport S := by
  unfold reportSolution referenceReport
  rw [printIndices_eq, printIndices_eq, (groups_of_string.1 S).1, (groups_of_string.1 S).2.1]

/-- The text written by `parse_result` when the solution set is not empty. -/
theorem parse_result_text (input : List Char)
    (h : (resultLoop (readRecords input)).solutions ≠ []) :
    parse_result input =
      (String.join ((resultLoop (readRecords input)).solutions.map referenceReport), 0) := by
  have hfun : reportSolution = referenceReport := by
    funext S
    exact reportSolution_eq S
  simp only [parse_result, List.isEmpty_iff, h, if_false, Bool.false_eq_true]
  unfold String.join
  rw [foldl_append_eq_join, hfun]

/-- C14: for every string `S`, so for every canonical string of the solution set, the
indices of Group A are, in ascending order, exactly the `i` with `S[i] == S[0]`, those of
Group B are, in ascending order, exactly the others, the two groups are disjoint and
together cover `0 .. len(S) - 1`, and the text written for `S` is the line `Group A:` with
the first list, the line `Group B:` with the second and an empty line; `parse_result`
writes these texts for the strings of the solution set, in the order of the set, and
returns 0.  For `0110` the groups are `0 3` and `1 2`. -/
theorem report_groups :
    (∀ S : List Char,
      groupA S = (List.range S.length).filter (fun i => decide (S[i]? = S[0]?)) ∧
      groupB S = (List.range S.length).filter (fun i => decide (S[i]? ≠ S[0]?)) ∧
      (groupA S).Pairwise (· < ·) ∧ (groupB S).Pairwise (· < ·) ∧
      (∀ i, i ∈ groupA S → i ∉ groupB S) ∧
      (∀ i, i < S.length ↔ (i ∈ groupA S ∨ i ∈ groupB S)) ∧
      reportSolution S = referenceReport S) ∧
    (∀ (input : List Char) (records : List Readout), WellFormedPrefix input records →
      (resultLoop records).solutions ≠ [] →
      parse_result input =
        (String.join ((resultLoop records).solutions.map referenceReport), 0)) ∧
    groupA "0110".toList = [0, 3] ∧ groupB "0110".toList = [1, 2] ∧
    reportSolution "0110".toList = "Group A: 0 3\nGroup B: 1 2\n\n" ∧
    referenceReport "0110".toList = "Group A: 0 3\nGroup B: 1 2\n\n" ∧
    parse_result "5 2 0011\n5 2 1100\n5 2 0101\n".toList =
      ("Group A: 0 1\nGroup B: 2 3\n\nGroup A: 0 2\nGroup B: 1 3\n\n", 0) := by
  refine ⟨?_, ?_, by decide, by decide, by decide, by decide, by decide⟩
  · intro S
    obtain ⟨h1, h2, h3, h4, h5, h6⟩ := groups_of_string.1 S
    exact ⟨h1, h2, h3, h4, h5, h6, reportSolution_eq S⟩
  · intro input records hwf hne
    have he := wellFormedPrefix_unique input records hwf
    subst he
    exact parse_result_text input hne

theorem report_groups_witness :
    WellFormedPrefix "3 2 0110\n".toList [⟨3, 2, "0110".toList⟩] ∧
    parse_result "3 2 0110\n".toList =
      (String.join ((resultLoop [⟨3, 2, "0110".toList⟩]).solutions.map referenceReport), 0) ∧
    parse_result "3 2 0110\n".toList = ("Group A: 0 3\nGroup B: 1 2\n\n", 0) :=
  have hwf : WellFormedPrefix "3 2 0110\n".toList [⟨3, 2, "0110".toList⟩] := by
    have h := wellFormedPrefix_readRecords "3 2 0110\n".toList
    have e : readRecords "3 2 0110\n".toList = [⟨3, 2, "0110".toList⟩] := by decide
    rw [e] at h
    exact h
  ⟨hwf, report_groups.2.1 "3 2 0110\n".toList [⟨3, 2, "0110".toList⟩] hwf (by decide),
    by decide⟩

end Qxt
